import Mathlib

/-
Verification of the layer-assignment algorithm (`drawable_layers`) and the
grid materializer (`drawable_grid`) from
`pennylane/circuit_drawer/drawable_layers.py`.

The embedding is shallow: operations are records holding an identifier and an
ordered list of wire labels; the wire map (a Python dict) is an association
list from labels to integer indices, looked up fallibly; Python's KeyError is
modelled by `Option`, with `none` meaning the computation raised.
-/

namespace DrawableLayers

/-- An operation: an opaque identity together with its ordered list of wire
labels.  Mirrors the interface the Python code uses (`op.wires`, hashability
and identity for set membership). -/
structure Op where
  id : Nat
  wires : List Nat
deriving DecidableEq, Repr

/-- A wire map: association list from wire labels to integer wire indices,
modelling the Python dict passed as `wire_map`. -/
abbrev WireMap := List (Nat × Nat)

/-- Dict lookup `wire_map[wire]`; `none` models a raised `KeyError`. -/
def lookupWire : WireMap → Nat → Option Nat
  | [], _ => none
  | (k, v) :: rest, w => if w = k then some v else lookupWire rest w

/-- The set `set(wire_map.values())`. -/
def wireMapValues (wm : WireMap) : Finset Nat := (wm.map Prod.snd).toFinset

/-- Python's `min` over a nonempty collection, on the list of mapped wires
(the `[]` case is unreachable at call sites). -/
def listMin : List Nat → Nat
  | [] => 0
  | x :: xs => xs.foldl Nat.min x

/-- Python's `max` over a nonempty collection, on the list of mapped wires
(the `[]` case is unreachable at call sites). -/
def listMax : List Nat → Nat
  | [] => 0
  | x :: xs => xs.foldl Nat.max x

/-- The comprehension `{wire_map[wire] for wire in op.wires}` as a list of
lookups; `none` models a raised `KeyError` on the first missing label. -/
def mapOpt (f : Nat → Option Nat) : List Nat → Option (List Nat)
  | [] => some []
  | a :: l =>
    match f a, mapOpt f l with
    | some b, some l' => some (b :: l')
    | _, _ => none

/-- The list of mapped wire indices of an operation (with multiplicity). -/
def mappedWires (wm : WireMap) (op : Op) : Option (List Nat) :=
  mapOpt (lookupWire wm) op.wires

/-- The set of mapped wire indices of an operation: all wire-map values for a
zero-wire (broadcast) operation, otherwise the set of looked-up indices. -/
def mappedIndexSet (wm : WireMap) (op : Op) : Option (Finset Nat) :=
  match op.wires with
  | [] => some (wireMapValues wm)
  | _ :: _ => (mappedWires wm op).map List.toFinset

/-- The operation's OccupiedSet (`op_occupied_wires` in the source): all
wire-map values for a zero-wire operation, otherwise the contiguous range
from the minimum to the maximum mapped index. -/
def opOccupiedWires (wm : WireMap) (op : Op) : Option (Finset Nat) :=
  match op.wires with
  | [] => some (wireMapValues wm)
  | _ :: _ =>
    (mappedWires wm op).map (fun mws => Finset.Icc (listMin mws) (listMax mws))

/-- The placement search `_recursive_find_layer`: starting at the candidate
layer, return candidate + 1 on an occupancy conflict, 0 once layer 0 is
reached without conflict, and otherwise recurse on the next lower layer. -/
def recursive_find_layer (opOcc : Finset Nat) (occ : List (Finset Nat)) : Nat → Nat
  | 0 => if ((occ.getD 0 ∅) ∩ opOcc).Nonempty then 1 else 0
  | n + 1 =>
    if ((occ.getD (n + 1) ∅) ∩ opOcc).Nonempty then n + 2
    else recursive_find_layer opOcc occ n

/-- The algorithm state of `drawable_layers`:
`(max_layer, occupied_wires_per_layer, ops_in_layer)`. -/
abbrev LState := Nat × List (Finset Nat) × List (List Op)

/-- Python `set.add`: layers are sets of operations, modelled as duplicate-free
lists. -/
def insertOp (op : Op) (l : List Op) : List Op := if op ∈ l then l else op :: l

/-- One iteration of the `for op in ops` loop of `drawable_layers`: compute the
operation's OccupiedSet, find its layer, append a fresh layer when the target
exceeds `max_layer`, and record the operation and its occupancy. -/
def layersStep (wm : WireMap) (st : LState) (op : Op) : Option LState :=
  (opOccupiedWires wm op).map (fun opOcc =>
    let opLayer := recursive_find_layer opOcc st.2.1 st.1
    let st' : LState :=
      if st.1 < opLayer then (st.1 + 1, st.2.1 ++ [∅], st.2.2 ++ [[]]) else st
    (st'.1,
     st'.2.1.set opLayer ((st'.2.1.getD opLayer ∅) ∪ opOcc),
     st'.2.2.set opLayer (insertOp op (st'.2.2.getD opLayer []))))

/-- The loop of `drawable_layers` over the remaining operations. -/
def layersAux (wm : WireMap) : List Op → LState → Option LState
  | [], st => some st
  | op :: rest, st =>
    match layersStep wm st op with
    | none => none
    | some st' => layersAux wm rest st'

/-- Sort operations into drawing layers (`drawable_layers`); returns the
`ops_in_layer` list; `none` models a raised `KeyError`. -/
def drawable_layers (ops : List Op) (wm : WireMap) : Option (List (List Op)) :=
  (layersAux wm ops (0, [∅], [[]])).map (fun st => st.2.2)

/-- The grid: a row per wire, a column per layer, cells holding an optional
operation reference. -/
abbrev Grid := List (List (Option Op))

/-- The in-range assignment `grid[r][c] = op`.  Python's subscript bounds
check is performed at the call sites that can violate it: `fillWires` guards
the indices coming from `wire_map[wire]` (see below), while the broadcast
column fill `for wire in range(n_wires)` uses this directly because its row
indices `0 .. n_wires - 1` and its layer index are within the freshly
allocated `n_wires x n_layers` grid by construction. -/
def setCell (g : Grid) (r c : Nat) (op : Op) : Grid :=
  g.set r ((g.getD r []).set c (some op))

/-- Read the cell `grid[r][c]`. -/
def getCell (g : Grid) (r c : Nat) : Option Op := (g.getD r []).getD c none

/-- The loop `for wire in op.wires: grid[wire_map[wire]][layer] = op`.
A missing label makes `wire_map[wire]` raise `KeyError`, and a mapped row
index outside the grid (or a layer index outside the row) makes the
subscript assignment raise `IndexError`; both are modelled by `none`. -/
def fillWires (wm : WireMap) (c : Nat) (op : Op) : List Nat → Grid → Option Grid
  | [], g => some g
  | w :: ws, g =>
    match lookupWire wm w with
    | none => none
    | some r =>
      if r < g.length ∧ c < (g.getD r []).length then
        fillWires wm c op ws (setCell g r c op)
      else none

/-- Fill the grid cells of one operation in layer `c`: a zero-wire operation
fills the entire column, any operation then fills the rows of its own wires. -/
def fillOneOp (wm : WireMap) (nWires c : Nat) (g : Grid) (op : Op) : Option Grid :=
  fillWires wm c op op.wires
    (if op.wires.isEmpty then (List.range nWires).foldl (fun g r => setCell g r c op) g
     else g)

/-- Fill the grid cells of all operations of one layer. -/
def fillLayerOps (wm : WireMap) (nWires c : Nat) : List Op → Grid → Option Grid
  | [], g => some g
  | op :: l, g =>
    match fillOneOp wm nWires c g op with
    | none => none
    | some g' => fillLayerOps wm nWires c l g'

/-- The loop `for layer, layer_ops in enumerate(ops_in_layer)`. -/
def fillLayers (wm : WireMap) (nWires : Nat) : Nat → List (List Op) → Grid → Option Grid
  | _, [], g => some g
  | c, l :: ls, g =>
    match fillLayerOps wm nWires c l g with
    | none => none
    | some g' => fillLayers wm nWires (c + 1) ls g'

/-- The grid materializer `drawable_grid`: special cases for an empty
operation list, otherwise run `drawable_layers` and fill an initially empty
`n_wires x n_layers` grid. -/
def drawable_grid (ops : List Op) (wm : WireMap) : Option Grid :=
  let nWires := wm.length
  if ops.isEmpty then
    if nWires = 0 then some [[]] else some (List.replicate nWires [])
  else
    match drawable_layers ops wm with
    | none => none
    | some layers =>
      fillLayers wm nWires 0 layers
        (List.replicate nWires (List.replicate layers.length (none : Option Op)))

/-! Basic lemmas about `List.getD`, `List.set` and `List.append`. -/

theorem getD_of_le_length {α : Type} (l : List α) (d : α) {i : Nat} (h : l.length ≤ i) :
    l.getD i d = d := by
  induction l generalizing i with
  | nil => cases i <;> rfl
  | cons a t ih =>
    cases i with
    | zero => simp at h
    | succ j => exact ih (by simpa using h)

theorem getD_set_self {α : Type} (l : List α) (a d : α) {i : Nat} (h : i < l.length) :
    (l.set i a).getD i d = a := by
  induction l generalizing i with
  | nil => simp at h
  | cons b t ih =>
    cases i with
    | zero => rfl
    | succ j => exact ih (by simpa using h)

theorem getD_set_ne {α : Type} (l : List α) (a d : α) {i j : Nat} (h : i ≠ j) :
    (l.set i a).getD j d = l.getD j d := by
  induction l generalizing i j with
  | nil => rfl
  | cons b t ih =>
    cases i with
    | zero =>
      cases j with
      | zero => exact absurd rfl h
      | succ k => rfl
    | succ i' =>
      cases j with
      | zero => rfl
      | succ k => exact ih (fun hik => h (by omega))

theorem getD_append_left {α : Type} (l l' : List α) (d : α) {i : Nat} (h : i < l.length) :
    (l ++ l').getD i d = l.getD i d := by
  induction l generalizing i with
  | nil => simp at h
  | cons b t ih =>
    cases i with
    | zero => rfl
    | succ j => exact ih (by simpa using h)

theorem getD_append_length {α : Type} (l : List α) (a d : α) :
    (l ++ [a]).getD l.length d = a := by
  induction l with
  | nil => rfl
  | cons b t ih => exact ih

/-! Facts about `listMin` and `listMax`. -/

theorem foldl_min_mem (xs : List Nat) (a : Nat) : xs.foldl Nat.min a ∈ a :: xs := by
  induction xs generalizing a with
  | nil => simp
  | cons x t ih =>
    simp only [List.foldl_cons]
    rcases List.mem_cons.mp (ih (Nat.min a x)) with h | h
    · have hd : Nat.min a x = a ∨ Nat.min a x = x := by
        rcases Nat.le_total a x with h1 | h1
        · exact Or.inl (Nat.min_eq_left h1)
        · exact Or.inr (Nat.min_eq_right h1)
      rcases hd with hd | hd
      · exact List.mem_cons.mpr (Or.inl (h.trans hd))
      · exact List.mem_cons.mpr (Or.inr (List.mem_cons.mpr (Or.inl (h.trans hd))))
    · exact List.mem_cons.mpr (Or.inr (List.mem_cons.mpr (Or.inr h)))

theorem foldl_min_le (xs : List Nat) (a : Nat) :
    xs.foldl Nat.min a ≤ a ∧ ∀ x ∈ xs, xs.foldl Nat.min a ≤ x := by
  induction xs generalizing a with
  | nil => simp
  | cons x t ih =>
    have h := ih (Nat.min a x)
    have h1 : Nat.min a x ≤ a := Nat.min_le_left a x
    have h2 : Nat.min a x ≤ x := Nat.min_le_right a x
    simp only [List.foldl_cons]
    constructor
    · exact le_trans h.1 h1
    · intro y hy
      rcases List.mem_cons.mp hy with hy | hy
      · rw [hy]; exact le_trans h.1 h2
      · exact h.2 y hy

theorem foldl_max_mem (xs : List Nat) (a : Nat) : xs.foldl Nat.max a ∈ a :: xs := by
  induction xs generalizing a with
  | nil => simp
  | cons x t ih =>
    simp only [List.foldl_cons]
    rcases List.mem_cons.mp (ih (Nat.max a x)) with h | h
    · have hd : Nat.max a x = a ∨ Nat.max a x = x := by
        rcases Nat.le_total a x with h1 | h1
        · exact Or.inr (Nat.max_eq_right h1)
        · exact Or.inl (Nat.max_eq_left h1)
      rcases hd with hd | hd
      · exact List.mem_cons.mpr (Or.inl (h.trans hd))
      · exact List.mem_cons.mpr (Or.inr (List.mem_cons.mpr (Or.inl (h.trans hd))))
    · exact List.mem_cons.mpr (Or.inr (List.mem_cons.mpr (Or.inr h)))

theorem foldl_max_ge (xs : List Nat) (a : Nat) :
    a ≤ xs.foldl Nat.max a ∧ ∀ x ∈ xs, x ≤ xs.foldl Nat.max a := by
  induction xs generalizing a with
  | nil => simp
  | cons x t ih =>
    have h := ih (Nat.max a x)
    have h1 : a ≤ Nat.max a x := Nat.le_max_left a x
    have h2 : x ≤ Nat.max a x := Nat.le_max_right a x
    simp only [List.foldl_cons]
    constructor
    · exact le_trans h1 h.1
    · intro y hy
      rcases List.mem_cons.mp hy with hy | hy
      · rw [hy]; exact le_trans h2 h.1
      · exact h.2 y hy

theorem listMin_mem {l : List Nat} (h : l ≠ []) : listMin l ∈ l := by
  cases l with
  | nil => exact absurd rfl h
  | cons x xs => exact foldl_min_mem xs x

theorem listMin_le {l : List Nat} : ∀ x ∈ l, listMin l ≤ x := by
  cases l with
  | nil => intro x hx; simp at hx
  | cons y xs =>
    intro x hx
    rcases List.mem_cons.mp hx with hx | hx
    · exact hx ▸ (foldl_min_le xs y).1
    · exact (foldl_min_le xs y).2 x hx

theorem listMax_mem {l : List Nat} (h : l ≠ []) : listMax l ∈ l := by
  cases l with
  | nil => exact absurd rfl h
  | cons x xs => exact foldl_max_mem xs x

theorem le_listMax {l : List Nat} : ∀ x ∈ l, x ≤ listMax l := by
  cases l with
  | nil => intro x hx; simp at hx
  | cons y xs =>
    intro x hx
    rcases List.mem_cons.mp hx with hx | hx
    · exact hx ▸ (foldl_max_ge xs y).1
    · exact (foldl_max_ge xs y).2 x hx

/-! Facts about `lookupWire` and `mapOpt`. -/

theorem lookupWire_mem {wm : WireMap} {w v : Nat} (h : lookupWire wm w = some v) :
    (w, v) ∈ wm := by
  induction wm with
  | nil => simp [lookupWire] at h
  | cons p rest ih =>
    obtain ⟨k, u⟩ := p
    by_cases hw : w = k
    · subst hw
      simp [lookupWire] at h
      exact h ▸ List.mem_cons_self _ _
    · simp [lookupWire, hw] at h
      exact List.mem_cons_of_mem _ (ih h)

theorem lookupWire_mem_values {wm : WireMap} {w v : Nat} (h : lookupWire wm w = some v) :
    v ∈ wireMapValues wm := by
  have := lookupWire_mem h
  simp only [wireMapValues, List.mem_toFinset, List.mem_map]
  exact ⟨(w, v), this, rfl⟩

theorem lookupWire_inj {wm : WireMap} (hv : (wm.map Prod.snd).Nodup)
    {w w' v : Nat} (h : lookupWire wm w = some v) (h' : lookupWire wm w' = some v) :
    w = w' := by
  induction wm with
  | nil => simp [lookupWire] at h
  | cons p rest ih =>
    obtain ⟨k, u⟩ := p
    simp only [List.map_cons, List.nodup_cons] at hv
    by_cases hw : w = k <;> by_cases hw' : w' = k
    · omega
    · simp [lookupWire, hw] at h
      simp [lookupWire, hw'] at h'
      exact absurd (h ▸ (List.mem_map.2 ⟨(w', v), lookupWire_mem h', rfl⟩)) hv.1
    · simp [lookupWire, hw] at h
      simp [lookupWire, hw'] at h'
      exact absurd (h' ▸ (List.mem_map.2 ⟨(w, v), lookupWire_mem h, rfl⟩)) hv.1
    · simp [lookupWire, hw] at h
      simp [lookupWire, hw'] at h'
      exact ih hv.2 h h'

theorem mapOpt_eq_none {f : Nat → Option Nat} {l : List Nat} :
    mapOpt f l = none ↔ ∃ a ∈ l, f a = none := by
  induction l with
  | nil => simp [mapOpt]
  | cons a t ih =>
    constructor
    · intro h
      cases hfa : f a with
      | none => exact ⟨a, List.mem_cons_self _ _, hfa⟩
      | some b =>
        cases ht : mapOpt f t with
        | none =>
          obtain ⟨x, hx, hfx⟩ := ih.1 ht
          exact ⟨x, List.mem_cons_of_mem _ hx, hfx⟩
        | some l' => simp [mapOpt, hfa, ht] at h
    · rintro ⟨x, hx, hfx⟩
      rcases List.mem_cons.mp hx with hx | hx
      · subst hx; simp [mapOpt, hfx]
      · cases hfa : f a with
        | none => simp [mapOpt, hfa]
        | some b =>
          have : mapOpt f t = none := ih.2 ⟨x, hx, hfx⟩
          simp [mapOpt, hfa, this]

theorem mapOpt_mem {f : Nat → Option Nat} {l l' : List Nat} (h : mapOpt f l = some l') :
    ∀ b ∈ l', ∃ a ∈ l, f a = some b := by
  induction l generalizing l' with
  | nil =>
    simp [mapOpt] at h
    subst h; simp
  | cons a t ih =>
    cases hfa : f a with
    | none => simp [mapOpt, hfa] at h
    | some b =>
      cases ht : mapOpt f t with
      | none => simp [mapOpt, hfa, ht] at h
      | some tl =>
        simp [mapOpt, hfa, ht] at h
        subst h
        intro x hx
        rcases List.mem_cons.mp hx with hx | hx
        · exact ⟨a, List.mem_cons_self _ _, hx ▸ hfa⟩
        · obtain ⟨y, hy, hfy⟩ := ih ht x hx
          exact ⟨y, List.mem_cons_of_mem _ hy, hfy⟩

theorem mapOpt_forall_mem {f : Nat → Option Nat} {l l' : List Nat}
    (h : mapOpt f l = some l') : ∀ a ∈ l, ∃ b ∈ l', f a = some b := by
  induction l generalizing l' with
  | nil => simp
  | cons a t ih =>
    cases hfa : f a with
    | none => simp [mapOpt, hfa] at h
    | some b =>
      cases ht : mapOpt f t with
      | none => simp [mapOpt, hfa, ht] at h
      | some tl =>
        simp [mapOpt, hfa, ht] at h
        subst h
        intro x hx
        rcases List.mem_cons.mp hx with hx | hx
        · exact ⟨b, List.mem_cons_self _ _, hx ▸ hfa⟩
        · obtain ⟨y, hy, hfy⟩ := ih ht x hx
          exact ⟨y, List.mem_cons_of_mem _ hy, hfy⟩

theorem mapOpt_length {f : Nat → Option Nat} {l l' : List Nat} (h : mapOpt f l = some l') :
    l'.length = l.length := by
  induction l generalizing l' with
  | nil => simp [mapOpt] at h; simp [h.symm]
  | cons a t ih =>
    cases hfa : f a with
    | none => simp [mapOpt, hfa] at h
    | some b =>
      cases ht : mapOpt f t with
      | none => simp [mapOpt, hfa, ht] at h
      | some tl =>
        simp [mapOpt, hfa, ht] at h
        subst h
        simp [ih ht]

theorem mapOpt_eq_map {f : Nat → Option Nat} {l l' : List Nat} (h : mapOpt f l = some l') :
    l' = l.map (fun a => (f a).getD 0) := by
  induction l generalizing l' with
  | nil => simp [mapOpt] at h; simp [h]
  | cons a t ih =>
    cases hfa : f a with
    | none => simp [mapOpt, hfa] at h
    | some b =>
      cases ht : mapOpt f t with
      | none => simp [mapOpt, hfa, ht] at h
      | some tl =>
        simp [mapOpt, hfa, ht] at h
        subst h
        simp [hfa, ih ht]

/-! Characterization of the placement search `recursive_find_layer`. -/

/-- The conflict test of the source: layer `j`'s occupancy intersects the
operation's OccupiedSet. -/
abbrev conflict (occ : List (Finset Nat)) (opOcc : Finset Nat) (j : Nat) : Prop :=
  ((occ.getD j ∅) ∩ opOcc).Nonempty

theorem find_layer_le (opOcc : Finset Nat) (occ : List (Finset Nat)) (n : Nat) :
    recursive_find_layer opOcc occ n ≤ n + 1 := by
  induction n with
  | zero =>
    simp only [recursive_find_layer]
    split <;> omega
  | succ m ih =>
    simp only [recursive_find_layer]
    split
    · omega
    · omega

theorem find_layer_char (opOcc : Finset Nat) (occ : List (Finset Nat)) (n : Nat) :
    (conflict occ opOcc n → recursive_find_layer opOcc occ n = n + 1) ∧
    (∀ j, recursive_find_layer opOcc occ n ≤ j → j ≤ n → ¬ conflict occ opOcc j) ∧
    (0 < recursive_find_layer opOcc occ n →
      conflict occ opOcc (recursive_find_layer opOcc occ n - 1)) := by
  induction n with
  | zero =>
    by_cases hc : conflict occ opOcc 0
    · refine ⟨fun _ => ?_, fun j h1 h2 => ?_, fun _ => ?_⟩
      · simp only [recursive_find_layer, if_pos hc]
      · simp only [recursive_find_layer, if_pos hc] at h1
        omega
      · simp only [recursive_find_layer, if_pos hc]
        exact hc
    · refine ⟨fun hcc => absurd hcc hc, fun j h1 h2 => ?_, fun h0 => ?_⟩
      · have hj : j = 0 := by omega
        exact hj ▸ hc
      · simp only [recursive_find_layer, if_neg hc] at h0
        exact absurd h0 (lt_irrefl 0)
  | succ m ih =>
    by_cases hc : conflict occ opOcc (m + 1)
    · refine ⟨fun _ => ?_, fun j h1 h2 => ?_, fun _ => ?_⟩
      · simp only [recursive_find_layer, if_pos hc]
      · simp only [recursive_find_layer, if_pos hc] at h1
        omega
      · simp only [recursive_find_layer, if_pos hc]
        exact hc
    · have hrw : recursive_find_layer opOcc occ (m + 1) =
          recursive_find_layer opOcc occ m := by
        simp only [recursive_find_layer, if_neg hc]
      refine ⟨fun hcc => absurd hcc hc, fun j h1 h2 => ?_, fun h0 => ?_⟩
      · rw [hrw] at h1
        by_cases hj : j = m + 1
        · exact hj ▸ hc
        · exact ih.2.1 j h1 (by omega)
      · rw [hrw] at h0 ⊢
        exact ih.2.2 h0

theorem find_layer_conflict_lt {opOcc : Finset Nat} {occ : List (Finset Nat)} {n k : Nat}
    (hk : k ≤ n) (hc : conflict occ opOcc k) : k < recursive_find_layer opOcc occ n := by
  by_contra h
  exact (find_layer_char opOcc occ n).2.1 k (by omega) hk hc

theorem find_layer_disjoint {opOcc : Finset Nat} {occ : List (Finset Nat)} {n : Nat}
    (h : recursive_find_layer opOcc occ n ≤ n) :
    Disjoint (occ.getD (recursive_find_layer opOcc occ n) ∅) opOcc := by
  have := (find_layer_char opOcc occ n).2.1 (recursive_find_layer opOcc occ n) le_rfl h
  rw [Finset.disjoint_left]
  intro a ha ha'
  exact this ⟨a, Finset.mem_inter.mpr ⟨ha, ha'⟩⟩

theorem find_layer_empty (occ : List (Finset Nat)) (n : Nat) :
    recursive_find_layer ∅ occ n = 0 := by
  induction n with
  | zero => simp [recursive_find_layer]
  | succ m ih => simp [recursive_find_layer, ih]

/-! Facts about per-operation OccupiedSets. -/

theorem opOccupiedWires_broadcast {wm : WireMap} {op : Op} (h : op.wires = []) :
    opOccupiedWires wm op = some (wireMapValues wm) := by
  unfold opOccupiedWires
  rw [h]

theorem mappedWires_subset_values {wm : WireMap} {op : Op} {mws : List Nat}
    (h : mappedWires wm op = some mws) : ∀ x ∈ mws, x ∈ wireMapValues wm := by
  intro x hx
  obtain ⟨w, _, hw⟩ := mapOpt_mem h x hx
  exact lookupWire_mem_values hw

theorem opOccupiedWires_nonempty_meets_values {wm : WireMap} {op : Op} {s : Finset Nat}
    (h : opOccupiedWires wm op = some s) (hs : s.Nonempty) :
    (s ∩ wireMapValues wm).Nonempty := by
  unfold opOccupiedWires at h
  cases hw : op.wires with
  | nil =>
    rw [hw] at h
    simp only [Option.some.injEq] at h
    subst h
    exact ⟨hs.choose, Finset.mem_inter.mpr ⟨hs.choose_spec, hs.choose_spec⟩⟩
  | cons a t =>
    rw [hw] at h
    cases hm : mappedWires wm op with
    | none => rw [hm] at h; simp at h
    | some mws =>
      rw [hm] at h
      simp only [Option.map_some', Option.some.injEq] at h
      have hlen : mws.length = op.wires.length := mapOpt_length hm
      have hne : mws ≠ [] := by
        intro hnil
        rw [hnil] at hlen
        rw [hw] at hlen
        simp at hlen
      have hmin_mem : listMin mws ∈ mws := listMin_mem hne
      have hmin_val : listMin mws ∈ wireMapValues wm :=
        mappedWires_subset_values hm _ hmin_mem
      have hmin_in_s : listMin mws ∈ s := by
        rw [← h]
        exact Finset.mem_Icc.mpr ⟨le_rfl, le_listMax _ hmin_mem⟩
      exact ⟨listMin mws, Finset.mem_inter.mpr ⟨hmin_in_s, hmin_val⟩⟩

theorem mappedIndexSet_subset_occupied {wm : WireMap} {op : Op} {m s : Finset Nat}
    (hm : mappedIndexSet wm op = some m) (hs : opOccupiedWires wm op = some s) :
    m ⊆ s := by
  unfold mappedIndexSet at hm
  unfold opOccupiedWires at hs
  cases hw : op.wires with
  | nil =>
    rw [hw] at hm hs
    simp only [Option.some.injEq] at hm hs
    rw [← hm, ← hs]
  | cons a t =>
    rw [hw] at hm hs
    cases hmw : mappedWires wm op with
    | none => rw [hmw] at hm; simp at hm
    | some mws =>
      rw [hmw] at hm hs
      simp only [Option.map_some', Option.some.injEq] at hm hs
      intro x hx
      rw [← hm] at hx
      rw [← hs]
      have hxl : x ∈ mws := List.mem_toFinset.mp hx
      exact Finset.mem_Icc.mpr ⟨listMin_le _ hxl, le_listMax _ hxl⟩

theorem mappedIndexSet_subset_values {wm : WireMap} {op : Op} {m : Finset Nat}
    (hm : mappedIndexSet wm op = some m) : m ⊆ wireMapValues wm := by
  unfold mappedIndexSet at hm
  cases hw : op.wires with
  | nil =>
    rw [hw] at hm
    simp only [Option.some.injEq] at hm
    rw [← hm]
  | cons a t =>
    rw [hw] at hm
    cases hmw : mappedWires wm op with
    | none => rw [hmw] at hm; simp at hm
    | some mws =>
      rw [hmw] at hm
      simp only [Option.map_some', Option.some.injEq] at hm
      intro x hx
      rw [← hm] at hx
      exact mappedWires_subset_values hmw x (List.mem_toFinset.mp hx)

/-! Helper lemmas for the state update of `drawable_layers`. -/

theorem set_of_le_length {α : Type} (l : List α) (a : α) {i : Nat} (h : l.length ≤ i) :
    l.set i a = l := by
  induction l generalizing i with
  | nil => rfl
  | cons b t ih =>
    cases i with
    | zero => simp at h
    | succ j => simp only [List.set]; rw [ih (by simpa using h)]

theorem getD_append_single {α : Type} (l : List α) (x d : α) (i : Nat) :
    (l ++ [x]).getD i d =
      if i < l.length then l.getD i d else if i = l.length then x else d := by
  rcases Nat.lt_trichotomy i l.length with h | h | h
  · rw [if_pos h, getD_append_left _ _ _ h]
  · subst h
    simp only [lt_irrefl, if_false, if_pos rfl, if_neg (lt_irrefl _)]
    exact getD_append_length l x d
  · rw [if_neg (by omega), if_neg (by omega)]
    exact getD_of_le_length _ _ (by simp; omega)

theorem mem_insertOp_iff {op o : Op} {l : List Op} :
    o ∈ insertOp op l ↔ o = op ∨ o ∈ l := by
  unfold insertOp
  split
  · constructor
    · exact fun h => Or.inr h
    · rintro (rfl | h)
      · assumption
      · exact h
  · exact List.mem_cons

theorem mem_insertOp_self (op : Op) (l : List Op) : op ∈ insertOp op l :=
  mem_insertOp_iff.mpr (Or.inl rfl)

theorem mem_insertOp_of_mem {o : Op} {l : List Op} (op : Op) (h : o ∈ l) :
    o ∈ insertOp op l :=
  mem_insertOp_iff.mpr (Or.inr h)

theorem insertOp_ne_nil (op : Op) (l : List Op) : insertOp op l ≠ [] := by
  unfold insertOp
  split
  · intro h
    subst h
    simp_all
  · simp

theorem insertOp_nodup {op : Op} {l : List Op} (h : l.Nodup) : (insertOp op l).Nodup := by
  unfold insertOp
  split
  · exact h
  · exact List.nodup_cons.mpr ⟨by assumption, h⟩

/-- The union of the OccupiedSets of the operations recorded in one layer. -/
def layerUnion (wm : WireMap) : List Op → Finset Nat
  | [] => ∅
  | op :: l => (opOccupiedWires wm op).getD ∅ ∪ layerUnion wm l

theorem mem_layerUnion {wm : WireMap} {l : List Op} {x : Nat} :
    x ∈ layerUnion wm l ↔ ∃ op ∈ l, x ∈ (opOccupiedWires wm op).getD ∅ := by
  induction l with
  | nil => simp [layerUnion]
  | cons op t ih =>
    simp only [layerUnion, Finset.mem_union, ih, List.mem_cons]
    constructor
    · rintro (h | ⟨o, ho, hx⟩)
      · exact ⟨op, Or.inl rfl, h⟩
      · exact ⟨o, Or.inr ho, hx⟩
    · rintro ⟨o, (rfl | ho), hx⟩
      · exact Or.inl hx
      · exact Or.inr ⟨o, ho, hx⟩

theorem layerUnion_subset_of_mem {wm : WireMap} {l : List Op} {op : Op} (h : op ∈ l) :
    (opOccupiedWires wm op).getD ∅ ⊆ layerUnion wm l := by
  intro x hx
  exact mem_layerUnion.mpr ⟨op, h, hx⟩

theorem layerUnion_insertOp (wm : WireMap) (op : Op) (l : List Op) :
    layerUnion wm (insertOp op l) = (opOccupiedWires wm op).getD ∅ ∪ layerUnion wm l := by
  unfold insertOp
  split
  · rename_i h
    exact (Finset.union_eq_right.mpr (layerUnion_subset_of_mem h)).symm
  · rfl

/-! The loop invariant of `drawable_layers` and its preservation. -/

/-- Invariant of the `drawable_layers` loop state: the two per-layer lists
have length `max_layer + 1`; each layer's occupancy is exactly the union of
the OccupiedSets of its member operations; layers hold no duplicates; member
operations have well-defined OccupiedSets, pairwise disjoint within a layer;
and all layers above layer 0 are nonempty. -/
structure Inv (wm : WireMap) (st : LState) : Prop where
  occLen : st.2.1.length = st.1 + 1
  lyLen : st.2.2.length = st.1 + 1
  occEq : ∀ i, st.2.1.getD i ∅ = layerUnion wm (st.2.2.getD i [])
  nodup : ∀ i, (st.2.2.getD i []).Nodup
  defined : ∀ i op, op ∈ st.2.2.getD i [] → ∃ s, opOccupiedWires wm op = some s
  disj : ∀ i op op', op ∈ st.2.2.getD i [] → op' ∈ st.2.2.getD i [] → op ≠ op' →
    Disjoint ((opOccupiedWires wm op).getD ∅) ((opOccupiedWires wm op').getD ∅)
  dense : ∀ i, 1 ≤ i → i ≤ st.1 → st.2.2.getD i [] ≠ []

theorem Inv_init (wm : WireMap) : Inv wm (0, [∅], [[]]) := by
  constructor
  · rfl
  · rfl
  · intro i
    match i with
    | 0 => rfl
    | j + 1 =>
      show (∅ : Finset Nat) = layerUnion wm (List.getD [] j [])
      rw [getD_of_le_length]
      · rfl
      · simp
  · intro i
    match i with
    | 0 => exact List.nodup_nil
    | j + 1 =>
      show (List.getD [] j []).Nodup
      rw [getD_of_le_length _ _ (by simp)]
      exact List.nodup_nil
  · intro i op h
    match i with
    | 0 => simp at h
    | j + 1 =>
      rw [show List.getD [[]] (j + 1) [] = List.getD [] j [] from rfl,
        getD_of_le_length _ _ (by simp)] at h
      simp at h
  · intro i op op' h h' _
    match i with
    | 0 => simp at h
    | j + 1 =>
      rw [show List.getD [[]] (j + 1) [] = List.getD [] j [] from rfl,
        getD_of_le_length _ _ (by simp)] at h
      simp at h
  · intro i h1 h2
    omega

/-- Comprehensive description of one loop iteration of `drawable_layers`:
the target layer `L` is the result of the placement search, `max_layer`
advances exactly when `L` exceeds it, only index `L` of the two per-layer
lists changes, layer `L` gains the operation and its occupancy, and the
previous occupancy of layer `L` is disjoint from the operation's
OccupiedSet. -/
theorem layersStep_spec {wm : WireMap} {st : LState} {op : Op} {st' : LState}
    (hoccLen : st.2.1.length = st.1 + 1) (hlyLen : st.2.2.length = st.1 + 1)
    (hs : layersStep wm st op = some st') :
    ∃ opOcc L,
      opOccupiedWires wm op = some opOcc ∧
      L = recursive_find_layer opOcc st.2.1 st.1 ∧
      ((st.1 < L ∧ st'.1 = st.1 + 1 ∧ L = st.1 + 1) ∨ (L ≤ st.1 ∧ st'.1 = st.1)) ∧
      st'.2.1.length = st'.1 + 1 ∧
      st'.2.2.length = st'.1 + 1 ∧
      (∀ i, i ≠ L → st'.2.1.getD i ∅ = st.2.1.getD i ∅) ∧
      (∀ i, i ≠ L → st'.2.2.getD i [] = st.2.2.getD i []) ∧
      st'.2.1.getD L ∅ = st.2.1.getD L ∅ ∪ opOcc ∧
      st'.2.2.getD L [] = insertOp op (st.2.2.getD L []) ∧
      Disjoint (st.2.1.getD L ∅) opOcc := by
  unfold layersStep at hs
  cases hocc : opOccupiedWires wm op with
  | none => rw [hocc] at hs; simp at hs
  | some opOcc =>
    rw [hocc] at hs
    simp only [Option.map_some', Option.some.injEq] at hs
    set L := recursive_find_layer opOcc st.2.1 st.1 with hLdef
    have hLle : L ≤ st.1 + 1 := find_layer_le opOcc st.2.1 st.1
    refine ⟨opOcc, L, rfl, rfl, ?_⟩
    by_cases hlt : st.1 < L
    · have hLeq : L = st.1 + 1 := by omega
      rw [if_pos hlt] at hs
      subst hs
      dsimp only
      have hoccTop : (st.2.1 ++ [(∅ : Finset Nat)]).getD L ∅ = ∅ := by
        rw [hLeq, ← hoccLen, getD_append_length]
      have hlyTop : (st.2.2 ++ [([] : List Op)]).getD L [] = [] := by
        rw [hLeq, ← hlyLen, getD_append_length]
      have hoccOld : st.2.1.getD L ∅ = ∅ :=
        getD_of_le_length _ _ (by omega)
      have hlyOld : st.2.2.getD L [] = [] :=
        getD_of_le_length _ _ (by omega)
      refine ⟨Or.inl ⟨hlt, rfl, hLeq⟩, ?_, ?_, ?_, ?_, ?_, ?_, ?_⟩
      · simp only [List.length_set, List.length_append, List.length_singleton]
        omega
      · simp only [List.length_set, List.length_append, List.length_singleton]
        omega
      · intro i hi
        rw [getD_set_ne _ _ _ (fun h => hi h.symm), getD_append_single]
        rcases Nat.lt_trichotomy i st.2.1.length with h | h | h
        · rw [if_pos h]
        · omega
        · rw [if_neg (by omega), if_neg (by omega)]
          rw [getD_of_le_length _ _ (by omega)]
      · intro i hi
        rw [getD_set_ne _ _ _ (fun h => hi h.symm), getD_append_single]
        rcases Nat.lt_trichotomy i st.2.2.length with h | h | h
        · rw [if_pos h]
        · omega
        · rw [if_neg (by omega), if_neg (by omega)]
          rw [getD_of_le_length _ _ (by omega)]
      · rw [getD_set_self _ _ _ (by simp; omega), hoccTop, hoccOld]
      · rw [getD_set_self _ _ _ (by simp; omega), hlyTop, hlyOld]
      · rw [hoccOld]
        exact Finset.disjoint_empty_left opOcc
    · have hLle' : L ≤ st.1 := by omega
      rw [if_neg hlt] at hs
      subst hs
      dsimp only
      refine ⟨Or.inr ⟨hLle', rfl⟩, ?_, ?_, ?_, ?_, ?_, ?_, ?_⟩
      · simp only [List.length_set]
        exact hoccLen
      · simp only [List.length_set]
        exact hlyLen
      · intro i hi
        exact getD_set_ne _ _ _ (fun h => hi h.symm)
      · intro i hi
        exact getD_set_ne _ _ _ (fun h => hi h.symm)
      · exact getD_set_self _ _ _ (by omega)
      · exact getD_set_self _ _ _ (by omega)
      · exact find_layer_disjoint hLle'

theorem layersStep_none_iff {wm : WireMap} {st : LState} {op : Op} :
    layersStep wm st op = none ↔ opOccupiedWires wm op = none := by
  unfold layersStep
  cases h : opOccupiedWires wm op <;> simp

theorem layersStep_inv {wm : WireMap} {st : LState} {op : Op} {st' : LState}
    (inv : Inv wm st) (hs : layersStep wm st op = some st') : Inv wm st' := by
  obtain ⟨opOcc, L, hocc, hL, hcase, hoccLen, hlyLen, hoccNe, hlyNe, hoccL, hlyL, hdisjL⟩ :=
    layersStep_spec inv.occLen inv.lyLen hs
  constructor
  · exact hoccLen
  · exact hlyLen
  · intro i
    by_cases hi : i = L
    · subst hi
      rw [hoccL, hlyL, layerUnion_insertOp, inv.occEq i, hocc]
      exact Finset.union_comm _ _
    · rw [hoccNe i hi, hlyNe i hi]
      exact inv.occEq i
  · intro i
    by_cases hi : i = L
    · subst hi
      rw [hlyL]
      exact insertOp_nodup (inv.nodup i)
    · rw [hlyNe i hi]
      exact inv.nodup i
  · intro i o ho
    by_cases hi : i = L
    · subst hi
      rw [hlyL] at ho
      rcases mem_insertOp_iff.mp ho with rfl | ho
      · exact ⟨opOcc, hocc⟩
      · exact inv.defined _ o ho
    · rw [hlyNe i hi] at ho
      exact inv.defined i o ho
  · intro i o o' ho ho' hne
    by_cases hi : i = L
    · subst hi
      rw [hlyL] at ho ho'
      rcases mem_insertOp_iff.mp ho with heq | hmo
      · rcases mem_insertOp_iff.mp ho' with heq' | hmo'
        · exact absurd (heq.trans heq'.symm) hne
        · have hsub : (opOccupiedWires wm o').getD ∅ ⊆ st.2.1.getD i ∅ := by
            rw [inv.occEq i]
            exact layerUnion_subset_of_mem hmo'
          rw [heq, hocc]
          simp only [Option.getD_some]
          exact Finset.disjoint_of_subset_right hsub hdisjL.symm
      · rcases mem_insertOp_iff.mp ho' with heq' | hmo'
        · have hsub : (opOccupiedWires wm o).getD ∅ ⊆ st.2.1.getD i ∅ := by
            rw [inv.occEq i]
            exact layerUnion_subset_of_mem hmo
          rw [heq', hocc]
          simp only [Option.getD_some]
          exact Finset.disjoint_of_subset_left hsub hdisjL
        · exact inv.disj i o o' hmo hmo' hne
    · rw [hlyNe i hi] at ho ho'
      exact inv.disj i o o' ho ho' hne
  · intro i h1 h2
    by_cases hi : i = L
    · subst hi
      rw [hlyL]
      exact insertOp_ne_nil op _
    · rw [hlyNe i hi]
      rcases hcase with ⟨hlt, hst, hLeq⟩ | ⟨hle, hst⟩
      · exact inv.dense i h1 (by omega)
      · exact inv.dense i h1 (by omega)

/-! Lemmas about the full loop `layersAux`. -/

theorem layersAux_inv {wm : WireMap} {ops : List Op} :
    ∀ {st st' : LState}, Inv wm st → layersAux wm ops st = some st' → Inv wm st' := by
  induction ops with
  | nil =>
    intro st st' inv h
    simp only [layersAux, Option.some.injEq] at h
    exact h ▸ inv
  | cons op rest ih =>
    intro st st' inv h
    simp only [layersAux] at h
    cases hs : layersStep wm st op with
    | none => rw [hs] at h; simp at h
    | some st1 =>
      rw [hs] at h
      exact ih (layersStep_inv inv hs) h

theorem layersAux_mono {wm : WireMap} {ops : List Op} :
    ∀ {st st' : LState}, Inv wm st → layersAux wm ops st = some st' →
      st.1 ≤ st'.1 ∧
      (∀ i x, x ∈ st.2.1.getD i ∅ → x ∈ st'.2.1.getD i ∅) ∧
      (∀ i o, o ∈ st.2.2.getD i [] → o ∈ st'.2.2.getD i []) := by
  induction ops with
  | nil =>
    intro st st' inv h
    simp only [layersAux, Option.some.injEq] at h
    subst h
    exact ⟨le_rfl, fun i x hx => hx, fun i o ho => ho⟩
  | cons op rest ih =>
    intro st st' inv h
    simp only [layersAux] at h
    cases hs : layersStep wm st op with
    | none => rw [hs] at h; simp at h
    | some st1 =>
      rw [hs] at h
      obtain ⟨opOcc, L, hocc, hL, hcase, _, _, hoccNe, hlyNe, hoccL, hlyL, _⟩ :=
        layersStep_spec inv.occLen inv.lyLen hs
      obtain ⟨hm1, hm2, hm3⟩ := ih (layersStep_inv inv hs) h
      refine ⟨?_, ?_, ?_⟩
      · rcases hcase with ⟨_, hst, _⟩ | ⟨_, hst⟩ <;> omega
      · intro i x hx
        apply hm2 i x
        by_cases hi : i = L
        · subst hi
          rw [hoccL]
          exact Finset.mem_union_left _ hx
        · rw [hoccNe i hi]
          exact hx
      · intro i o ho
        apply hm3 i o
        by_cases hi : i = L
        · subst hi
          rw [hlyL]
          exact mem_insertOp_of_mem op ho
        · rw [hlyNe i hi]
          exact ho

theorem layersAux_provenance {wm : WireMap} {ops : List Op} :
    ∀ {st st' : LState}, Inv wm st → layersAux wm ops st = some st' →
      ∀ i o, o ∈ st'.2.2.getD i [] → o ∈ st.2.2.getD i [] ∨ o ∈ ops := by
  induction ops with
  | nil =>
    intro st st' inv h i o ho
    simp only [layersAux, Option.some.injEq] at h
    subst h
    exact Or.inl ho
  | cons op rest ih =>
    intro st st' inv h i o ho
    simp only [layersAux] at h
    cases hs : layersStep wm st op with
    | none => rw [hs] at h; simp at h
    | some st1 =>
      rw [hs] at h
      obtain ⟨opOcc, L, hocc, hL, hcase, _, _, hoccNe, hlyNe, hoccL, hlyL, _⟩ :=
        layersStep_spec inv.occLen inv.lyLen hs
      rcases ih (layersStep_inv inv hs) h i o ho with h1 | h1
      · by_cases hi : i = L
        · subst hi
          rw [hlyL] at h1
          rcases mem_insertOp_iff.mp h1 with rfl | h1
          · exact Or.inr (List.mem_cons_self _ _)
          · exact Or.inl h1
        · rw [hlyNe i hi] at h1
          exact Or.inl h1
      · exact Or.inr (List.mem_cons_of_mem _ h1)

theorem layersAux_none_iff {wm : WireMap} {ops : List Op} :
    ∀ {st : LState}, layersAux wm ops st = none ↔
      ∃ op ∈ ops, opOccupiedWires wm op = none := by
  induction ops with
  | nil =>
    intro st
    simp [layersAux]
  | cons op rest ih =>
    intro st
    simp only [layersAux]
    cases hs : layersStep wm st op with
    | none =>
      simp only [true_iff]
      exact ⟨op, List.mem_cons_self _ _, layersStep_none_iff.mp hs⟩
    | some st1 =>
      rw [ih]
      constructor
      · rintro ⟨o, ho, hno⟩
        exact ⟨o, List.mem_cons_of_mem _ ho, hno⟩
      · rintro ⟨o, ho, hno⟩
        rcases List.mem_cons.mp ho with rfl | ho
        · exact absurd (layersStep_none_iff.mpr hno) (by rw [hs]; simp)
        · exact ⟨o, ho, hno⟩

theorem layersAux_blocked {wm : WireMap} {ops : List Op} :
    ∀ {st st' : LState} {N : Op} {sN : Finset Nat} {w lM : Nat},
      Inv wm st → w ∈ st.2.1.getD lM ∅ → lM ≤ st.1 →
      opOccupiedWires wm N = some sN → w ∈ sN →
      (∀ j, j ≤ lM → N ∉ st.2.2.getD j []) →
      layersAux wm ops st = some st' →
      ∀ j, j ≤ lM → N ∉ st'.2.2.getD j [] := by
  induction ops with
  | nil =>
    intro st st' N sN w lM inv hw hlM hN hwN hNnot h
    simp only [layersAux, Option.some.injEq] at h
    subst h
    exact hNnot
  | cons op rest ih =>
    intro st st' N sN w lM inv hw hlM hN hwN hNnot h
    simp only [layersAux] at h
    cases hs : layersStep wm st op with
    | none => rw [hs] at h; simp at h
    | some st1 =>
      rw [hs] at h
      obtain ⟨opOcc, L, hocc, hL, hcase, _, _, hoccNe, hlyNe, hoccL, hlyL, _⟩ :=
        layersStep_spec inv.occLen inv.lyLen hs
      have hw1 : w ∈ st1.2.1.getD lM ∅ := by
        by_cases hi : lM = L
        · subst hi
          rw [hoccL]
          exact Finset.mem_union_left _ hw
        · rw [hoccNe lM hi]
          exact hw
      have hlM1 : lM ≤ st1.1 := by
        rcases hcase with ⟨_, hst, _⟩ | ⟨_, hst⟩ <;> omega
      have hNnot1 : ∀ j, j ≤ lM → N ∉ st1.2.2.getD j [] := by
        intro j hj hmem
        by_cases hi : j = L
        · subst hi
          rw [hlyL] at hmem
          rcases mem_insertOp_iff.mp hmem with rfl | hmem
          · have hcfl : conflict st.2.1 opOcc lM := by
              rw [hocc] at hN
              simp only [Option.some.injEq] at hN
              exact ⟨w, Finset.mem_inter.mpr ⟨hw, hN ▸ hwN⟩⟩
            have := find_layer_conflict_lt hlM hcfl
            omega
          · exact hNnot j hj hmem
        · rw [hlyNe j hi] at hmem
          exact hNnot j hj hmem
      exact ih (layersStep_inv inv hs) hw1 hlM1 hN hwN hNnot1 h

theorem layersAux_unique {wm : WireMap} {ops : List Op} :
    ∀ {st st' : LState}, Inv wm st → ops.Nodup →
      (∀ o i, o ∈ st.2.2.getD i [] → o ∉ ops) →
      (∀ o i j, o ∈ st.2.2.getD i [] → o ∈ st.2.2.getD j [] → i = j) →
      layersAux wm ops st = some st' →
      ∀ o i j, o ∈ st'.2.2.getD i [] → o ∈ st'.2.2.getD j [] → i = j := by
  induction ops with
  | nil =>
    intro st st' inv _ _ huniq h
    simp only [layersAux, Option.some.injEq] at h
    subst h
    exact huniq
  | cons op rest ih =>
    intro st st' inv hnd hfresh huniq h
    simp only [layersAux] at h
    cases hs : layersStep wm st op with
    | none => rw [hs] at h; simp at h
    | some st1 =>
      rw [hs] at h
      obtain ⟨opOcc, L, hocc, hL, hcase, _, _, hoccNe, hlyNe, hoccL, hlyL, _⟩ :=
        layersStep_spec inv.occLen inv.lyLen hs
      have hmem1 : ∀ o i, o ∈ st1.2.2.getD i [] →
          o ∈ st.2.2.getD i [] ∨ (o = op ∧ i = L) := by
        intro o i hmem
        by_cases hi : i = L
        · subst hi
          rw [hlyL] at hmem
          rcases mem_insertOp_iff.mp hmem with rfl | hmem
          · exact Or.inr ⟨rfl, rfl⟩
          · exact Or.inl hmem
        · rw [hlyNe i hi] at hmem
          exact Or.inl hmem
      have hopfresh : ∀ i, op ∉ st.2.2.getD i [] := by
        intro i hmem
        exact hfresh op i hmem (List.mem_cons_self _ _)
      refine ih (layersStep_inv inv hs) (List.nodup_cons.mp hnd).2 ?_ ?_ h
      · intro o i hmem hrest
        rcases hmem1 o i hmem with hmem | ⟨rfl, _⟩
        · exact hfresh o i hmem (List.mem_cons_of_mem _ hrest)
        · exact (List.nodup_cons.mp hnd).1 hrest
      · intro o i j hi hj
        rcases hmem1 o i hi with hio | ⟨rfl, rfl⟩ <;>
          rcases hmem1 o j hj with hjo | hj2
        · exact huniq o i j hio hjo
        · exact absurd hio (hj2.1 ▸ hopfresh i)
        · exact absurd hjo (hopfresh j)
        · exact hj2.2.symm

theorem layersAux_total {wm : WireMap} {ops : List Op} :
    ∀ {st st' : LState}, Inv wm st → layersAux wm ops st = some st' →
      ∀ o ∈ ops, ∃ i, o ∈ st'.2.2.getD i [] := by
  induction ops with
  | nil =>
    intro st st' _ _ o ho
    simp at ho
  | cons op rest ih =>
    intro st st' inv h o ho
    simp only [layersAux] at h
    cases hs : layersStep wm st op with
    | none => rw [hs] at h; simp at h
    | some st1 =>
      rw [hs] at h
      obtain ⟨opOcc, L, hocc, hL, hcase, _, _, hoccNe, hlyNe, hoccL, hlyL, _⟩ :=
        layersStep_spec inv.occLen inv.lyLen hs
      rcases List.mem_cons.mp ho with rfl | ho
      · have hmem : o ∈ st1.2.2.getD L [] := by
          rw [hlyL]
          exact mem_insertOp_self o _
        obtain ⟨_, _, hm3⟩ := layersAux_mono (layersStep_inv inv hs) h
        exact ⟨L, hm3 L o hmem⟩
      · exact ih (layersStep_inv inv hs) h o ho

theorem layersAux_append {wm : WireMap} (l1 l2 : List Op) :
    ∀ st, layersAux wm (l1 ++ l2) st =
      (layersAux wm l1 st).bind (fun st1 => layersAux wm l2 st1) := by
  induction l1 with
  | nil => intro st; rfl
  | cons op rest ih =>
    intro st
    simp only [List.cons_append, layersAux]
    cases hs : layersStep wm st op with
    | none => rfl
    | some st1 => exact ih st1

/-! Bridging lemmas between list membership and indexed access. -/

theorem getD_eq_get {α : Type} (l : List α) (d : α) {i : Nat} (h : i < l.length) :
    l.getD i d = l.get ⟨i, h⟩ := by
  induction l generalizing i with
  | nil => simp at h
  | cons a t ih =>
    cases i with
    | zero => rfl
    | succ j => exact ih (by simpa using h)

theorem mem_iff_getD {α : Type} (l : List α) (x d : α) :
    x ∈ l ↔ ∃ i, i < l.length ∧ l.getD i d = x := by
  constructor
  · intro h
    obtain ⟨⟨i, hi⟩, hget⟩ := List.mem_iff_get.mp h
    exact ⟨i, hi, by rw [getD_eq_get _ _ hi, hget]⟩
  · rintro ⟨i, hi, hget⟩
    rw [getD_eq_get _ _ hi] at hget
    exact hget ▸ List.get_mem l i hi

theorem opOccupiedWires_none_iff {wm : WireMap} {op : Op} :
    opOccupiedWires wm op = none ↔ ∃ w ∈ op.wires, lookupWire wm w = none := by
  unfold opOccupiedWires
  cases hw : op.wires with
  | nil => simp [hw]
  | cons a t =>
    unfold mappedWires
    rw [hw]
    cases hm : mapOpt (lookupWire wm) (a :: t) with
    | none =>
      simp only [Option.map_none', true_iff]
      exact mapOpt_eq_none.mp hm
    | some mws =>
      simp only [Option.map_some']
      constructor
      · intro hcontra
        exact absurd hcontra (by simp)
      · rintro ⟨w, hwmem, hwl⟩
        have hn := mapOpt_eq_none.mpr ⟨w, hwmem, hwl⟩
        rw [hm] at hn
        simp at hn

theorem opOccupiedWires_some_lookups {wm : WireMap} {op : Op} {s : Finset Nat}
    (h : opOccupiedWires wm op = some s) :
    ∀ w ∈ op.wires, ∃ r, lookupWire wm w = some r := by
  intro w hw
  cases hl : lookupWire wm w with
  | none =>
    rw [opOccupiedWires_none_iff.mpr ⟨w, hw, hl⟩] at h
    simp at h
  | some r => exact ⟨r, rfl⟩

/-! Verification of the individual specification claims. -/

/-- C10: for every wire map, `drawable_layers` applied to an empty operation
sequence returns a list of exactly one layer whose operation set is empty
(the result is `[{}]`, never the empty list), and every layer sequence the
assigner produces has length at least 1. -/
theorem drawable_layers_empty_ops (wm : WireMap) :
    drawable_layers [] wm = some [[]] ∧
    ∀ ops F, drawable_layers ops wm = some F → 1 ≤ F.length := by
  constructor
  · rfl
  · intro ops F h
    unfold drawable_layers at h
    cases haux : layersAux wm ops (0, [∅], [[]]) with
    | none => rw [haux] at h; simp at h
    | some st =>
      rw [haux] at h
      simp only [Option.map_some', Option.some.injEq] at h
      have inv := layersAux_inv (Inv_init wm) haux
      rw [← h, inv.lyLen]
      omega

theorem drawable_layers_empty_ops_witness :
    drawable_layers [] [(0, 0)] = some [[]] :=
  (drawable_layers_empty_ops [(0, 0)]).1

/-- C2: the placement search returns `max_layer + 1` whenever layer
`max_layer` conflicts with the operation's OccupiedSet; in general its result
`r` satisfies `r ≤ max_layer + 1`, no layer between `r` and `max_layer`
conflicts, and if `r > 0` then layer `r - 1` conflicts — i.e. `r` is the
start index of the longest contiguous run of non-conflicting layers ending at
`max_layer` (with the conflict at `r - 1` being the first one found walking
downward, and `r = 0` when layer 0 is reached without conflict). -/
theorem recursive_find_layer_spec (opOcc : Finset Nat) (occ : List (Finset Nat)) (n : Nat) :
    (conflict occ opOcc n → recursive_find_layer opOcc occ n = n + 1) ∧
    recursive_find_layer opOcc occ n ≤ n + 1 ∧
    (∀ j, recursive_find_layer opOcc occ n ≤ j → j ≤ n → ¬ conflict occ opOcc j) ∧
    (0 < recursive_find_layer opOcc occ n →
      conflict occ opOcc (recursive_find_layer opOcc occ n - 1)) :=
  ⟨(find_layer_char opOcc occ n).1, find_layer_le opOcc occ n,
    (find_layer_char opOcc occ n).2.1, (find_layer_char opOcc occ n).2.2⟩

theorem recursive_find_layer_spec_witness :
    recursive_find_layer {0} [{0}] 0 = 1 ∧ ¬ conflict [{0}, ∅] {0} 1 :=
  ⟨(recursive_find_layer_spec {0} [{0}] 0).1 (by decide),
   (recursive_find_layer_spec {0} [{0}, ∅] 1).2.2.1 1 (by decide) (by omega)⟩

/-- C1: for every operation sequence and every wire map covering all
referenced wire labels, `drawable_layers` succeeds and, in each produced
layer, the OccupiedSets of the member operations are pairwise disjoint. -/
theorem drawable_layers_disjoint (ops : List Op) (wm : WireMap)
    (hcov : ∀ op ∈ ops, ∀ w ∈ op.wires, ∃ v, lookupWire wm w = some v) :
    ∃ F, drawable_layers ops wm = some F ∧
      ∀ l ∈ F, ∀ op ∈ l, ∀ op' ∈ l, op ≠ op' →
        ∀ s s', opOccupiedWires wm op = some s → opOccupiedWires wm op' = some s' →
          Disjoint s s' := by
  cases haux : layersAux wm ops (0, [∅], [[]]) with
  | none =>
    obtain ⟨op, hop, hnone⟩ := layersAux_none_iff.mp haux
    obtain ⟨w, hw, hwl⟩ := opOccupiedWires_none_iff.mp hnone
    obtain ⟨v, hv⟩ := hcov op hop w hw
    rw [hv] at hwl
    simp at hwl
  | some st =>
    refine ⟨st.2.2, by unfold drawable_layers; rw [haux]; rfl, ?_⟩
    have inv := layersAux_inv (Inv_init wm) haux
    intro l hl op hop op' hop' hne s s' hs hs'
    obtain ⟨i, hi, hgi⟩ := (mem_iff_getD st.2.2 l []).mp hl
    have hd := inv.disj i op op' (hgi ▸ hop) (hgi ▸ hop') hne
    rw [hs, hs'] at hd
    simpa using hd

theorem drawable_layers_disjoint_witness :
    Disjoint ({1} : Finset Nat) ({0} : Finset Nat) := by
  obtain ⟨F, hF, hdisj⟩ := drawable_layers_disjoint [⟨0, [0]⟩, ⟨1, [1]⟩] [(0, 0), (1, 1)]
    (by
      intro op hop w hw
      rcases List.mem_cons.mp hop with rfl | hop
      · rcases List.mem_cons.mp hw with rfl | hw
        · exact ⟨0, rfl⟩
        · simp at hw
      · rcases List.mem_cons.mp hop with rfl | hop
        · rcases List.mem_cons.mp hw with rfl | hw
          · exact ⟨1, rfl⟩
          · simp at hw
        · simp at hop)
  have hFval : F = [[⟨1, [1]⟩, ⟨0, [0]⟩]] := by
    have h2 : drawable_layers [⟨0, [0]⟩, ⟨1, [1]⟩] [(0, 0), (1, 1)] =
        some [[⟨1, [1]⟩, ⟨0, [0]⟩]] := by decide
    rw [h2] at hF
    exact (Option.some_injective _ hF).symm
  subst hFval
  exact hdisj [⟨1, [1]⟩, ⟨0, [0]⟩] (by simp) ⟨1, [1]⟩ (by simp) ⟨0, [0]⟩ (by simp)
    (by decide) {1} {0} (by decide) (by decide)

/-- C7: the produced layer sequence has no fully empty layer between two
non-empty layers (every layer other than layer 0 is in fact non-empty), and
layers are only ever appended: the layers produced for a prefix of the input
persist, at the same indices, into the layers produced for the full input. -/
theorem drawable_layers_density (ops : List Op) (wm : WireMap) (F : List (List Op))
    (h : drawable_layers ops wm = some F) :
    (∀ j, 0 < j → j < F.length → F.getD j [] ≠ []) ∧
    (∀ i j k, i < j → j < k → k < F.length →
      F.getD i [] ≠ [] → F.getD k [] ≠ [] → F.getD j [] ≠ []) ∧
    (∀ l1 l2 F1, ops = l1 ++ l2 → drawable_layers l1 wm = some F1 →
      ∀ idx op, op ∈ F1.getD idx [] → op ∈ F.getD idx []) := by
  unfold drawable_layers at h
  cases haux : layersAux wm ops (0, [∅], [[]]) with
  | none => rw [haux] at h; simp at h
  | some st =>
    rw [haux] at h
    simp only [Option.map_some', Option.some.injEq] at h
    have inv := layersAux_inv (Inv_init wm) haux
    have hdense : ∀ j, 0 < j → j < F.length → F.getD j [] ≠ [] := by
      intro j h1 h2
      rw [← h]
      rw [← h, inv.lyLen] at h2
      exact inv.dense j h1 (by omega)
    refine ⟨hdense, ?_, ?_⟩
    · intro i j k hij hjk hk hi hk2
      exact hdense j (by omega) (by omega)
    · intro l1 l2 F1 hsplit h1
      unfold drawable_layers at h1
      cases haux1 : layersAux wm l1 (0, [∅], [[]]) with
      | none => rw [haux1] at h1; simp at h1
      | some st1 =>
        rw [haux1] at h1
        simp only [Option.map_some', Option.some.injEq] at h1
        have hfull := haux
        rw [hsplit, layersAux_append, haux1] at hfull
        simp only [Option.some_bind] at hfull
        intro idx op hop
        have inv1 := layersAux_inv (Inv_init wm) haux1
        obtain ⟨_, _, hm3⟩ := layersAux_mono inv1 hfull
        rw [← h]
        rw [← h1] at hop
        exact hm3 idx op hop

theorem drawable_layers_density_witness :
    ([[⟨0, [0]⟩], [⟨1, [0]⟩]] : List (List Op)).getD 1 [] ≠ [] := by
  have h := drawable_layers_density [⟨0, [0]⟩, ⟨1, [0]⟩] [(0, 0)] [[⟨0, [0]⟩], [⟨1, [0]⟩]]
    (by decide)
  exact h.1 1 (by omega) (by decide)

/-! Unfolding equations for one step of the wire fill loop. -/

theorem fillWires_cons (wm : WireMap) (c : Nat) (op : Op) (w : Nat) (ws : List Nat)
    (g : Grid) {r : Nat} (hr : lookupWire wm w = some r) :
    fillWires wm c op (w :: ws) g =
      if r < g.length ∧ c < (g.getD r []).length then
        fillWires wm c op ws (setCell g r c op)
      else none := by
  show (match lookupWire wm w with
    | none => none
    | some r0 =>
      if r0 < g.length ∧ c < (g.getD r0 []).length then
        fillWires wm c op ws (setCell g r0 c op)
      else none) = _
  rw [hr]

theorem fillWires_cons_none (wm : WireMap) (c : Nat) (op : Op) (w : Nat) (ws : List Nat)
    (g : Grid) (hr : lookupWire wm w = none) :
    fillWires wm c op (w :: ws) g = none := by
  show (match lookupWire wm w with
    | none => none
    | some r0 =>
      if r0 < g.length ∧ c < (g.getD r0 []).length then
        fillWires wm c op ws (setCell g r0 c op)
      else none) = none
  rw [hr]

/-- Operations recorded in a successful layer assignment all have resolvable
wire lookups. -/
theorem drawable_layers_ops_covered {ops : List Op} {wm : WireMap} {F : List (List Op)}
    (h : drawable_layers ops wm = some F) :
    ∀ l ∈ F, ∀ op ∈ l, ∀ w ∈ op.wires, ∃ r, lookupWire wm w = some r := by
  unfold drawable_layers at h
  cases haux : layersAux wm ops (0, [∅], [[]]) with
  | none => rw [haux] at h; simp at h
  | some st =>
    rw [haux] at h
    simp only [Option.map_some', Option.some.injEq] at h
    have inv := layersAux_inv (Inv_init wm) haux
    intro l hl op hop w hw
    obtain ⟨i, hi, hgi⟩ := (mem_iff_getD st.2.2 l []).mp (h ▸ hl)
    have hprov := layersAux_provenance (Inv_init wm) haux i op (hgi ▸ hop)
    rcases hprov with hinit | hops
    · match i, hinit with
      | 0, hinit => simp at hinit
      | j + 1, hinit =>
        rw [show List.getD [[]] (j + 1) [] = List.getD [] j [] from rfl,
          getD_of_le_length _ _ (by simp)] at hinit
        simp at hinit
    · have hnn : opOccupiedWires wm op ≠ none := by
        intro hnone
        exact absurd haux (by rw [layersAux_none_iff.mpr ⟨op, hops, hnone⟩]; simp)
      cases hocc : opOccupiedWires wm op with
      | none => exact absurd hocc hnn
      | some s => exact opOccupiedWires_some_lookups hocc w hw

/-- The failure of `drawable_layers` alone: it is exactly a missing wire
label (`KeyError` at `wire_map[wire]`). -/
theorem drawable_layers_none_iff (ops : List Op) (wm : WireMap) :
    drawable_layers ops wm = none ↔
      ∃ op ∈ ops, ∃ w ∈ op.wires, lookupWire wm w = none := by
  unfold drawable_layers
  rw [Option.map_eq_none', layersAux_none_iff]
  constructor
  · rintro ⟨op, hop, hnone⟩
    exact ⟨op, hop, opOccupiedWires_none_iff.mp hnone⟩
  · rintro ⟨op, hop, w, hw, hwl⟩
    exact ⟨op, hop, opOccupiedWires_none_iff.mpr ⟨w, hw, hwl⟩⟩

/-! Decomposition helpers for runs of the loop. -/

theorem layersAux_cons {wm : WireMap} {op : Op} {rest : List Op} {st st' : LState}
    (h : layersAux wm (op :: rest) st = some st') :
    ∃ st1, layersStep wm st op = some st1 ∧ layersAux wm rest st1 = some st' := by
  simp only [layersAux] at h
  cases hs : layersStep wm st op with
  | none => rw [hs] at h; simp at h
  | some st1 => rw [hs] at h; exact ⟨st1, rfl, h⟩

theorem layersAux_append_some {wm : WireMap} {l1 l2 : List Op} {st st' : LState}
    (h : layersAux wm (l1 ++ l2) st = some st') :
    ∃ st1, layersAux wm l1 st = some st1 ∧ layersAux wm l2 st1 = some st' := by
  rw [layersAux_append] at h
  cases h1 : layersAux wm l1 st with
  | none => rw [h1] at h; simp at h
  | some st1 =>
    rw [h1] at h
    simp only [Option.some_bind] at h
    exact ⟨st1, rfl, h⟩

theorem init_getD_empty (i : Nat) : (([[]] : List (List Op)).getD i []) = [] := by
  match i with
  | 0 => rfl
  | j + 1 => exact getD_of_le_length _ _ (by simp)

/-- An operation whose OccupiedSet is disjoint from the OccupiedSet of every
operation recorded so far is placed in layer 0. -/
theorem layersStep_place_zero {wm : WireMap} {st st' : LState} {op : Op} {s : Finset Nat}
    (inv : Inv wm st) (hocc : opOccupiedWires wm op = some s)
    (hfree : ∀ i, ∀ o ∈ st.2.2.getD i [], Disjoint ((opOccupiedWires wm o).getD ∅) s)
    (hs : layersStep wm st op = some st') :
    op ∈ st'.2.2.getD 0 [] := by
  obtain ⟨opOcc, L, hocc', hL, hcase, _, _, hoccNe, hlyNe, hoccL, hlyL, _⟩ :=
    layersStep_spec inv.occLen inv.lyLen hs
  have hsrw : opOcc = s := by
    rw [hocc] at hocc'
    exact (Option.some_injective _ hocc').symm
  subst hsrw
  have hnoconf : ∀ j, ¬ conflict st.2.1 opOcc j := by
    intro j hc
    obtain ⟨x, hx⟩ := hc
    have hx1 := Finset.mem_inter.mp hx
    rw [inv.occEq j] at hx1
    obtain ⟨o, ho, hxo⟩ := mem_layerUnion.mp hx1.1
    exact Finset.disjoint_left.mp (hfree j o ho) hxo hx1.2
  have hL0 : L = 0 := by
    rcases Nat.eq_zero_or_pos L with h0 | hpos
    · exact h0
    · exact absurd ((find_layer_char opOcc st.2.1 st.1).2.2 (hL ▸ hpos)) (by
        rw [← hL]
        exact hnoconf (L - 1))
  rw [hL0] at hlyL
  rw [hlyL]
  exact mem_insertOp_self op _

/-- C4 counterexample: in `[A(0), B(0), C(1)]` with the identity wire map,
operations `B` and `C` have disjoint OccupiedSets and are adjacent in input
order (no intervening operation at all), yet `B` lands in layer 1 while `C`
lands in layer 0 — they are not placed in the same layer. -/
theorem leftmost_packing_cex :
    drawable_layers [Op.mk 0 [0], Op.mk 1 [0], Op.mk 2 [1]] [(0, 0), (1, 1)] =
      some [[Op.mk 2 [1], Op.mk 0 [0]], [Op.mk 1 [0]]] ∧
    opOccupiedWires [(0, 0), (1, 1)] (Op.mk 1 [0]) = some {0} ∧
    opOccupiedWires [(0, 0), (1, 1)] (Op.mk 2 [1]) = some {1} ∧
    Disjoint ({0} : Finset Nat) ({1} : Finset Nat) ∧
    (∀ l, Op.mk 1 [0] ∈
      ([[Op.mk 2 [1], Op.mk 0 [0]], [Op.mk 1 [0]]] : List (List Op)).getD l [] → l = 1) ∧
    (∀ l, Op.mk 2 [1] ∈
      ([[Op.mk 2 [1], Op.mk 0 [0]], [Op.mk 1 [0]]] : List (List Op)).getD l [] → l = 0) := by
  refine ⟨by decide, by decide, by decide, by decide, ?_, ?_⟩
  · intro l hl
    match l with
    | 0 => exact absurd hl (by decide)
    | 1 => rfl
    | n + 2 =>
      rw [getD_of_le_length _ _ (by simp)] at hl
      simp at hl
  · intro l hl
    match l with
    | 0 => rfl
    | 1 => exact absurd hl (by decide)
    | n + 2 =>
      rw [getD_of_le_length _ _ (by simp)] at hl
      simp at hl

/-- C4 amended: two operations whose OccupiedSets are disjoint and such that
no operation occurring earlier in the input conflicts with either of them
are both placed in the same, earliest possible, layer — layer 0. -/
theorem leftmost_packing (wm : WireMap) (l1 l2 l3 : List Op) (X Y : Op)
    (F : List (List Op))
    (hrun : drawable_layers (l1 ++ X :: l2 ++ Y :: l3) wm = some F)
    (hXfree : ∀ Z ∈ l1, ∀ sZ sX, opOccupiedWires wm Z = some sZ →
      opOccupiedWires wm X = some sX → Disjoint sZ sX)
    (hYfree : ∀ Z ∈ l1 ++ X :: l2, ∀ sZ sY, opOccupiedWires wm Z = some sZ →
      opOccupiedWires wm Y = some sY → Disjoint sZ sY) :
    X ∈ F.getD 0 [] ∧ Y ∈ F.getD 0 [] := by
  unfold drawable_layers at hrun
  cases haux : layersAux wm (l1 ++ X :: l2 ++ Y :: l3) (0, [∅], [[]]) with
  | none => rw [haux] at hrun; simp at hrun
  | some stF =>
    rw [haux] at hrun
    simp only [Option.map_some', Option.some.injEq] at hrun
    obtain ⟨st3, hpre, hrest⟩ := layersAux_append_some haux
    obtain ⟨st4, hYstep, h3⟩ := layersAux_cons hrest
    obtain ⟨st1, h1, hXpart⟩ := layersAux_append_some hpre
    obtain ⟨st2, hX, h2⟩ := layersAux_cons hXpart
    have inv0 := Inv_init wm
    have inv1 := layersAux_inv inv0 h1
    have inv2 := layersStep_inv inv1 hX
    have inv3 := layersAux_inv inv2 h2
    have inv4 := layersStep_inv inv3 hYstep
    have hoccX : ∃ sX, opOccupiedWires wm X = some sX := by
      cases hocc : opOccupiedWires wm X with
      | none => exact absurd hX (by rw [layersStep_none_iff.mpr hocc]; simp)
      | some sX => exact ⟨sX, rfl⟩
    obtain ⟨sX, hsX⟩ := hoccX
    have hoccY : ∃ sY, opOccupiedWires wm Y = some sY := by
      cases hocc : opOccupiedWires wm Y with
      | none => exact absurd hYstep (by rw [layersStep_none_iff.mpr hocc]; simp)
      | some sY => exact ⟨sY, rfl⟩
    obtain ⟨sY, hsY⟩ := hoccY
    have hprov1 : ∀ i, ∀ o ∈ st1.2.2.getD i [], o ∈ l1 := by
      intro i o ho
      rcases layersAux_provenance inv0 h1 i o ho with hinit | hops
      · rw [init_getD_empty i] at hinit
        simp at hinit
      · exact hops
    have hXzero : X ∈ st2.2.2.getD 0 [] := by
      apply layersStep_place_zero inv1 hsX ?_ hX
      intro i o ho
      have hZ := hprov1 i o ho
      obtain ⟨sZ, hsZ⟩ := inv1.defined i o ho
      rw [hsZ]
      simpa using hXfree o hZ sZ sX hsZ hsX
    have hprov3 : ∀ i, ∀ o ∈ st3.2.2.getD i [], o ∈ l1 ++ X :: l2 := by
      intro i o ho
      rcases layersAux_provenance inv2 h2 i o ho with hmem2 | hops
      · rcases layersAux_provenance inv0 (by
          rw [layersAux_append]
          rw [h1]
          simp only [Option.some_bind]
          show layersAux wm [X] st1 = some st2
          simp only [layersAux]
          rw [hX]) i o hmem2 with hinit | hops1
        · rw [init_getD_empty i] at hinit
          simp at hinit
        · rcases List.mem_append.mp hops1 with hh | hh
          · exact List.mem_append.mpr (Or.inl hh)
          · simp only [List.mem_singleton] at hh
            exact List.mem_append.mpr (Or.inr (hh ▸ List.mem_cons_self _ _))
      · exact List.mem_append.mpr (Or.inr (List.mem_cons_of_mem _ hops))
    have hYzero : Y ∈ st4.2.2.getD 0 [] := by
      apply layersStep_place_zero inv3 hsY ?_ hYstep
      intro i o ho
      have hZ := hprov3 i o ho
      obtain ⟨sZ, hsZ⟩ := inv3.defined i o ho
      rw [hsZ]
      simpa using hYfree o hZ sZ sY hsZ hsY
    have hXst3 : X ∈ st3.2.2.getD 0 [] :=
      (layersAux_mono inv2 h2).2.2 0 X hXzero
    have hXst4 : X ∈ st4.2.2.getD 0 [] := by
      obtain ⟨_, L, _, _, _, _, _, _, hlyNe, _, hlyL, _⟩ :=
        layersStep_spec inv3.occLen inv3.lyLen hYstep
      by_cases h0 : (0 : Nat) = L
      · rw [← h0] at hlyL
        rw [hlyL]
        exact mem_insertOp_of_mem Y hXst3
      · rw [hlyNe 0 h0]
        exact hXst3
    obtain ⟨_, _, hm3⟩ := layersAux_mono inv4 h3
    rw [← hrun]
    exact ⟨hm3 0 X hXst4, hm3 0 Y hYzero⟩

theorem leftmost_packing_witness :
    Op.mk 0 [0] ∈ ([[Op.mk 1 [1], Op.mk 0 [0]]] : List (List Op)).getD 0 [] ∧
    Op.mk 1 [1] ∈ ([[Op.mk 1 [1], Op.mk 0 [0]]] : List (List Op)).getD 0 [] := by
  have e1 : opOccupiedWires [(0, 0), (1, 1)] (Op.mk 0 [0]) = some ({0} : Finset Nat) := by
    decide
  have e2 : opOccupiedWires [(0, 0), (1, 1)] (Op.mk 1 [1]) = some ({1} : Finset Nat) := by
    decide
  exact leftmost_packing [(0, 0), (1, 1)] [] [] [] (Op.mk 0 [0]) (Op.mk 1 [1])
    [[Op.mk 1 [1], Op.mk 0 [0]]] (by decide)
    (by intro Z hZ; simp at hZ)
    (by
      intro Z hZ sZ sY h1 h2
      simp only [List.nil_append, List.mem_singleton] at hZ
      subst hZ
      rw [e1] at h1
      rw [e2] at h2
      obtain rfl : ({0} : Finset Nat) = sZ := Option.some_injective _ h1
      obtain rfl : ({1} : Finset Nat) = sY := Option.some_injective _ h2
      decide)

/-- Any wire-map value lying between two mapped indices of an operation
belongs to the operation's OccupiedSet. -/
theorem span_mem_occupied {wm : WireMap} {M : Op} {mM sM : Finset Nat} {i j w : Nat}
    (hM : mappedIndexSet wm M = some mM) (hsM : opOccupiedWires wm M = some sM)
    (hi : i ∈ mM) (hj : j ∈ mM) (hwi : i ≤ w) (hwj : w ≤ j)
    (hwval : w ∈ wireMapValues wm) : w ∈ sM := by
  unfold mappedIndexSet at hM
  unfold opOccupiedWires at hsM
  cases hwires : M.wires with
  | nil =>
    rw [hwires] at hsM
    simp only [Option.some.injEq] at hsM
    rw [← hsM]
    exact hwval
  | cons a t =>
    rw [hwires] at hM hsM
    cases hmw : mappedWires wm M with
    | none => rw [hmw] at hM; simp at hM
    | some mws =>
      rw [hmw] at hM hsM
      simp only [Option.map_some', Option.some.injEq] at hM hsM
      rw [← hsM]
      rw [← hM] at hi hj
      have h1 : listMin mws ≤ i := listMin_le i (List.mem_toFinset.mp hi)
      have h2 : j ≤ listMax mws := le_listMax j (List.mem_toFinset.mp hj)
      exact Finset.mem_Icc.mpr ⟨by omega, by omega⟩

/-- C3: a multi-wire operation `M` whose mapped wires have minimum index `i`
and maximum index `j` with `i < j` forces every later operation whose mapped
wires include any index `w` in the inclusive range `[i, j]` — including one
whose wires lie strictly between the endpoints — into a strictly later
layer; each of the two operations occupies exactly one layer. -/
theorem blocking_by_span (wm : WireMap) (pre mid post : List Op) (M N : Op)
    (F : List (List Op)) (mM mN : Finset Nat) (i j w : Nat)
    (hnd : (pre ++ M :: mid ++ N :: post).Nodup)
    (hM : mappedIndexSet wm M = some mM)
    (hN : mappedIndexSet wm N = some mN)
    (hi : i ∈ mM) (hj : j ∈ mM) (hbound : ∀ x ∈ mM, i ≤ x ∧ x ≤ j) (hij : i < j)
    (hw : w ∈ mN) (hwi : i ≤ w) (hwj : w ≤ j)
    (hrun : drawable_layers (pre ++ M :: mid ++ N :: post) wm = some F) :
    (∃ lM, ∀ l, (M ∈ F.getD l [] ↔ l = lM)) ∧
    (∃ lN, ∀ l, (N ∈ F.getD l [] ↔ l = lN)) ∧
    (∀ lM lN, M ∈ F.getD lM [] → N ∈ F.getD lN [] → lM < lN) := by
  unfold drawable_layers at hrun
  cases haux : layersAux wm (pre ++ M :: mid ++ N :: post) (0, [∅], [[]]) with
  | none => rw [haux] at hrun; simp at hrun
  | some stF =>
    rw [haux] at hrun
    simp only [Option.map_some', Option.some.injEq] at hrun
    obtain ⟨stA, hpreM, hrest⟩ := layersAux_append_some haux
    obtain ⟨st1, hpre, hMmid⟩ := layersAux_append_some hpreM
    obtain ⟨st2, hMstep, hmid⟩ := layersAux_cons hMmid
    have inv0 := Inv_init wm
    have inv1 := layersAux_inv inv0 hpre
    have inv2 := layersStep_inv inv1 hMstep
    have hcomb : layersAux wm (mid ++ N :: post) st2 = some stF := by
      rw [layersAux_append, hmid]
      simp only [Option.some_bind]
      exact hrest
    obtain ⟨sM, LM, hsM, hLM, hcase, _, _, _, _, hoccLM, hlyLM, _⟩ :=
      layersStep_spec inv1.occLen inv1.lyLen hMstep
    have hsN : ∃ sN, opOccupiedWires wm N = some sN := by
      cases hocc : opOccupiedWires wm N with
      | none =>
        have : layersAux wm (mid ++ N :: post) st2 = none :=
          layersAux_none_iff.mpr ⟨N, by simp, hocc⟩
        rw [this] at hcomb
        simp at hcomb
      | some sN => exact ⟨sN, rfl⟩
    obtain ⟨sN, hsN⟩ := hsN
    have hwM : w ∈ sM :=
      span_mem_occupied hM hsM hi hj hwi hwj (mappedIndexSet_subset_values hN hw)
    have hwN : w ∈ sN := mappedIndexSet_subset_occupied hN hsN hw
    have hNne : N ∉ pre ++ M :: mid := by
      intro hmem
      have hdisj := (List.nodup_append.mp hnd).2.2
      exact hdisj hmem (List.mem_cons_self _ _)
    have hNnotin2 : ∀ l, N ∉ st2.2.2.getD l [] := by
      intro l hmem
      have haux2 : layersAux wm (pre ++ [M]) (0, [∅], [[]]) = some st2 := by
        rw [layersAux_append, hpre]
        simp only [Option.some_bind, layersAux]
        rw [hMstep]
      rcases layersAux_provenance inv0 haux2 l N hmem with hinit | hops
      · rw [init_getD_empty l] at hinit
        simp at hinit
      · rcases List.mem_append.mp hops with hh | hh
        · exact hNne (List.mem_append.mpr (Or.inl hh))
        · simp only [List.mem_singleton] at hh
          exact hNne (List.mem_append.mpr (Or.inr (hh ▸ List.mem_cons_self _ _)))
    have hw2 : w ∈ st2.2.1.getD LM ∅ := by
      rw [hoccLM]
      exact Finset.mem_union_right _ hwM
    have hLM2 : LM ≤ st2.1 := by
      rcases hcase with ⟨_, hst, hLeq⟩ | ⟨hle, hst⟩ <;> omega
    have hblocked : ∀ l, l ≤ LM → N ∉ stF.2.2.getD l [] :=
      layersAux_blocked inv2 hw2 hLM2 hsN hwN (fun l _ => hNnotin2 l) hcomb
    have hMst2 : M ∈ st2.2.2.getD LM [] := by
      rw [hlyLM]
      exact mem_insertOp_self M _
    have hMstF : M ∈ stF.2.2.getD LM [] :=
      (layersAux_mono inv2 hcomb).2.2 LM M hMst2
    have huniq : ∀ o l l', o ∈ stF.2.2.getD l [] → o ∈ stF.2.2.getD l' [] → l = l' := by
      apply layersAux_unique inv0 hnd ?_ ?_ haux
      · intro o l hmem
        rw [init_getD_empty l] at hmem
        simp at hmem
      · intro o l l' hmem
        rw [init_getD_empty l] at hmem
        simp at hmem
    have htotal := layersAux_total inv0 haux
    obtain ⟨lN, hlN⟩ := htotal N (by
      refine List.mem_append.mpr (Or.inr ?_)
      exact List.mem_cons_self _ _)
    have hlNgt : LM < lN := by
      by_contra hle
      exact hblocked lN (by omega) hlN
    rw [← hrun]
    refine ⟨⟨LM, ?_⟩, ⟨lN, ?_⟩, ?_⟩
    · intro l
      constructor
      · intro hmem
        exact huniq M l LM hmem hMstF
      · rintro rfl
        exact hMstF
    · intro l
      constructor
      · intro hmem
        exact huniq N l lN hmem hlN
      · rintro rfl
        exact hlN
    · intro lM' lN' hM' hN'
      have h1 : lM' = LM := huniq M lM' LM hM' hMstF
      have h2 : lN' = lN := huniq N lN' lN hN' hlN
      omega

theorem blocking_by_span_witness : (0 : Nat) < 1 :=
  (blocking_by_span [(0, 0), (1, 1), (2, 2)] [] [] [] (Op.mk 0 [0, 2]) (Op.mk 1 [1])
    [[Op.mk 0 [0, 2]], [Op.mk 1 [1]]] {0, 2} {1} 0 2 1
    (by decide) (by decide) (by decide) (by decide) (by decide) (by decide) (by decide)
    (by decide) (by decide) (by decide) (by decide)).2.2 0 1 (by decide) (by decide)

/-- Once a layer above layer 0 holds exactly a broadcast operation and its
occupancy covers every wire-map value, no later operation is ever added to
that layer. -/
theorem layersAux_dedicated {wm : WireMap} {ops : List Op} :
    ∀ {st st' : LState} {bL : Nat} {b : Op},
      Inv wm st → 1 ≤ bL → bL ≤ st.1 → st.2.2.getD bL [] = [b] →
      wireMapValues wm ⊆ st.2.1.getD bL ∅ →
      layersAux wm ops st = some st' →
      st'.2.2.getD bL [] = [b] := by
  induction ops with
  | nil =>
    intro st st' bL b _ _ _ hly _ h
    simp only [layersAux, Option.some.injEq] at h
    subst h
    exact hly
  | cons op rest ih =>
    intro st st' bL b inv hbL1 hbL hly hval h
    simp only [layersAux] at h
    cases hs : layersStep wm st op with
    | none => rw [hs] at h; simp at h
    | some st1 =>
      rw [hs] at h
      obtain ⟨opOcc, L, hocc, hL, hcase, _, _, hoccNe, hlyNe, hoccL, hlyL, hdisjL⟩ :=
        layersStep_spec inv.occLen inv.lyLen hs
      have hLne : L ≠ bL := by
        intro hEq
        subst hEq
        by_cases hne : opOcc.Nonempty
        · obtain ⟨y, hy⟩ := opOccupiedWires_nonempty_meets_values hocc hne
          have hy1 := Finset.mem_inter.mp hy
          have hyocc : y ∈ st.2.1.getD L ∅ := hval hy1.2
          exact Finset.disjoint_left.mp hdisjL hyocc hy1.1
        · have hempty : opOcc = ∅ := Finset.not_nonempty_iff_eq_empty.mp hne
          rw [hempty] at hL
          rw [find_layer_empty st.2.1 st.1] at hL
          omega
      have hbL1' : bL ≤ st1.1 := by
        rcases hcase with ⟨_, hst, _⟩ | ⟨_, hst⟩ <;> omega
      refine ih (layersStep_inv inv hs) hbL1 hbL1' ?_ ?_ h
      · rw [hlyNe bL (fun hEq => hLne hEq.symm)]
        exact hly
      · rw [hoccNe bL (fun hEq => hLne hEq.symm)]
        exact hval

/-- C5: a zero-wire (broadcast) operation's OccupiedSet is every wire index
in the wire map; when some wire is occupied in the current layer (the layer
at index `max_layer`), the broadcast operation is placed in the freshly
created layer `max_layer + 1`, and in the final result that layer contains
the broadcast operation and nothing else: no earlier and no subsequent
operation shares it. -/
theorem broadcast_isolation (wm : WireMap) (pre post : List Op) (b : Op)
    (n1 : Nat) (occ1 : List (Finset Nat)) (ly1 : List (List Op)) (stF : LState)
    (hb : b.wires = [])
    (h1 : layersAux wm pre (0, [∅], [[]]) = some (n1, occ1, ly1))
    (hocc : (occ1.getD n1 ∅).Nonempty)
    (hF : layersAux wm (pre ++ b :: post) (0, [∅], [[]]) = some stF) :
    opOccupiedWires wm b = some (wireMapValues wm) ∧
    stF.2.2.getD (n1 + 1) [] = [b] := by
  refine ⟨opOccupiedWires_broadcast hb, ?_⟩
  obtain ⟨st1, h1', hrest⟩ := layersAux_append_some hF
  rw [h1] at h1'
  have hst1 : st1 = (n1, occ1, ly1) := (Option.some_injective _ h1').symm
  subst hst1
  obtain ⟨st2, hbstep, hpost⟩ := layersAux_cons hrest
  have inv1 := layersAux_inv (Inv_init wm) h1
  have inv2 := layersStep_inv inv1 hbstep
  have hmeet : ((occ1.getD n1 ∅) ∩ wireMapValues wm).Nonempty := by
    obtain ⟨x, hx⟩ := hocc
    have hx2 : x ∈ layerUnion wm (ly1.getD n1 []) := by
      have := inv1.occEq n1
      simp only at this
      rw [← this]
      exact hx
    obtain ⟨o, ho, hxo⟩ := mem_layerUnion.mp hx2
    obtain ⟨so, hso⟩ := inv1.defined n1 o ho
    rw [hso] at hxo
    simp only [Option.getD_some] at hxo
    obtain ⟨y, hy⟩ := opOccupiedWires_nonempty_meets_values hso ⟨x, hxo⟩
    have hy1 := Finset.mem_inter.mp hy
    refine ⟨y, Finset.mem_inter.mpr ⟨?_, hy1.2⟩⟩
    have heq := inv1.occEq n1
    simp only at heq
    rw [heq]
    apply layerUnion_subset_of_mem ho
    rw [hso]
    simp only [Option.getD_some]
    exact hy1.1
  obtain ⟨opOcc, L, hocc', hL, hcase, _, _, hoccNe, hlyNe, hoccL, hlyL, hdisjL⟩ :=
    layersStep_spec inv1.occLen inv1.lyLen hbstep
  have hopOcc : opOcc = wireMapValues wm := by
    rw [opOccupiedWires_broadcast hb] at hocc'
    exact (Option.some_injective _ hocc').symm
  subst hopOcc
  have hconf : conflict occ1 (wireMapValues wm) n1 := hmeet
  have hLval : L = n1 + 1 := by
    rw [hL]
    exact (find_layer_char (wireMapValues wm) occ1 n1).1 hconf
  subst hLval
  have hly2 : st2.2.2.getD (n1 + 1) [] = [b] := by
    rw [hlyL]
    have hold : ly1.getD (n1 + 1) [] = [] := by
      apply getD_of_le_length
      have := inv1.lyLen
      simp only at this
      omega
    simp only at hold
    rw [hold]
    rfl
  have hval2 : wireMapValues wm ⊆ st2.2.1.getD (n1 + 1) ∅ := by
    rw [hoccL]
    intro x hx
    exact Finset.mem_union_right _ hx
  have hmax2 : n1 + 1 ≤ st2.1 := by
    rcases hcase with ⟨_, hst, _⟩ | ⟨hle, _⟩
    · omega
    · simp only at hle
      omega
  exact layersAux_dedicated inv2 (by omega) hmax2 hly2 hval2 hpost

theorem broadcast_isolation_witness :
    opOccupiedWires [(0, 0)] (Op.mk 1 []) = some (wireMapValues [(0, 0)]) ∧
    ((2, [{0}, {0}, {0}], [[Op.mk 0 [0]], [Op.mk 1 []], [Op.mk 2 [0]]]) :
      LState).2.2.getD (0 + 1) [] = [Op.mk 1 []] :=
  broadcast_isolation [(0, 0)] [Op.mk 0 [0]] [Op.mk 2 [0]] (Op.mk 1 [])
    0 [{0}] [[Op.mk 0 [0]]]
    ((2, [{0}, {0}, {0}], [[Op.mk 0 [0]], [Op.mk 1 []], [Op.mk 2 [0]]]) : LState)
    rfl (by decide) (by decide) (by decide)

/-! Grid machinery: dimensions and single-cell updates. -/

/-- The grid has `nW` rows, each of length `nL`. -/
def gridDims (g : Grid) (nW nL : Nat) : Prop :=
  g.length = nW ∧ ∀ r, r < nW → (g.getD r []).length = nL

theorem getD_replicate {α : Type} (a d : α) {n i : Nat} (h : i < n) :
    (List.replicate n a).getD i d = a := by
  induction n generalizing i with
  | zero => simp at h
  | succ m ih =>
    cases i with
    | zero => rfl
    | succ j => exact ih (by omega)

theorem replicate_dims (nW nL : Nat) :
    gridDims (List.replicate nW (List.replicate nL (none : Option Op))) nW nL := by
  refine ⟨List.length_replicate _ _, ?_⟩
  intro r hr
  rw [getD_replicate _ _ hr]
  exact List.length_replicate _ _

theorem getCell_replicate_none (nW nL r c : Nat) :
    getCell (List.replicate nW (List.replicate nL (none : Option Op))) r c = none := by
  unfold getCell
  by_cases hr : r < nW
  · rw [getD_replicate (List.replicate nL (none : Option Op)) ([] : List (Option Op)) hr]
    by_cases hc : c < nL
    · exact getD_replicate (none : Option Op) none hc
    · exact getD_of_le_length (List.replicate nL (none : Option Op)) none
        (by rw [List.length_replicate]; omega)
  · rw [getD_of_le_length (List.replicate nW (List.replicate nL (none : Option Op)))
      ([] : List (Option Op)) (by rw [List.length_replicate]; omega)]
    rfl

theorem setCell_dims {g : Grid} {nW nL : Nat} (h : gridDims g nW nL) (r c : Nat) (op : Op) :
    gridDims (setCell g r c op) nW nL := by
  unfold setCell
  refine ⟨by simp [h.1], ?_⟩
  intro r' hr'
  by_cases hrr : r = r'
  · subst hrr
    by_cases hlen : r < g.length
    · rw [getD_set_self _ _ _ hlen, List.length_set]
      exact h.2 r hr'
    · rw [set_of_le_length _ _ (by omega)]
      exact h.2 r hr'
  · rw [getD_set_ne _ _ _ hrr]
    exact h.2 r' hr'

theorem getCell_setCell_same {g : Grid} {nW nL : Nat} (h : gridDims g nW nL)
    {r c : Nat} (hr : r < nW) (hc : c < nL) (op : Op) :
    getCell (setCell g r c op) r c = some op := by
  unfold getCell setCell
  have hrg : r < g.length := by rw [h.1]; exact hr
  rw [getD_set_self _ _ _ hrg]
  have hcg : c < (g.getD r []).length := by rw [h.2 r hr]; exact hc
  rw [getD_set_self _ _ _ hcg]

theorem getCell_setCell_other {g : Grid} {r c r' c' : Nat} (op : Op)
    (hne : r ≠ r' ∨ c ≠ c') :
    getCell (setCell g r' c' op) r c = getCell g r c := by
  unfold getCell setCell
  rcases hne with hne | hne
  · rw [getD_set_ne _ _ _ (fun hEq => hne hEq.symm)]
  · by_cases hrr : r' = r
    · subst hrr
      by_cases hlen : r' < g.length
      · rw [getD_set_self _ _ _ hlen]
        rw [getD_set_ne _ _ _ (fun hEq => hne hEq.symm)]
      · rw [set_of_le_length _ _ (by omega)]
    · rw [getD_set_ne _ _ _ hrr]

/-! Dimension preservation of the grid fill (no density assumptions). -/

theorem fillWires_dims {wm : WireMap} {c : Nat} {op : Op} {nW nL : Nat} :
    ∀ {ws : List Nat} {g g' : Grid}, gridDims g nW nL →
      fillWires wm c op ws g = some g' → gridDims g' nW nL := by
  intro ws
  induction ws with
  | nil =>
    intro g g' h hf
    simp only [fillWires, Option.some.injEq] at hf
    exact hf ▸ h
  | cons w t ih =>
    intro g g' h hf
    cases hl : lookupWire wm w with
    | none =>
      rw [fillWires_cons_none wm c op w t g hl] at hf
      simp at hf
    | some r =>
      rw [fillWires_cons wm c op w t g hl] at hf
      by_cases hcond : r < g.length ∧ c < (g.getD r []).length
      · rw [if_pos hcond] at hf
        exact ih (setCell_dims h r c op) hf
      · rw [if_neg hcond] at hf
        simp at hf

theorem foldl_setCell_dims {c : Nat} {op : Op} {nW nL : Nat} :
    ∀ (L : List Nat) {g : Grid}, gridDims g nW nL →
      gridDims (L.foldl (fun g r => setCell g r c op) g) nW nL := by
  intro L
  induction L with
  | nil => intro g h; exact h
  | cons a t ih =>
    intro g h
    exact ih (setCell_dims h a c op)

theorem fillOneOp_dims {wm : WireMap} {nW' c : Nat} {op : Op} {nW nL : Nat}
    {g g' : Grid} (h : gridDims g nW nL) (hf : fillOneOp wm nW' c g op = some g') :
    gridDims g' nW nL := by
  unfold fillOneOp at hf
  by_cases hw : op.wires.isEmpty
  · rw [if_pos hw] at hf
    exact fillWires_dims (foldl_setCell_dims _ h) hf
  · rw [if_neg hw] at hf
    exact fillWires_dims h hf

theorem fillLayerOps_dims {wm : WireMap} {nW' c : Nat} {nW nL : Nat} :
    ∀ {l : List Op} {g g' : Grid}, gridDims g nW nL →
      fillLayerOps wm nW' c l g = some g' → gridDims g' nW nL := by
  intro l
  induction l with
  | nil =>
    intro g g' h hf
    simp only [fillLayerOps, Option.some.injEq] at hf
    exact hf ▸ h
  | cons op t ih =>
    intro g g' h hf
    simp only [fillLayerOps] at hf
    cases h1 : fillOneOp wm nW' c g op with
    | none => rw [h1] at hf; simp at hf
    | some g1 =>
      rw [h1] at hf
      exact ih (fillOneOp_dims h h1) hf

theorem fillLayers_dims {wm : WireMap} {nW' : Nat} {nW nL : Nat} :
    ∀ {ls : List (List Op)} {c : Nat} {g g' : Grid}, gridDims g nW nL →
      fillLayers wm nW' c ls g = some g' → gridDims g' nW nL := by
  intro ls
  induction ls with
  | nil =>
    intro c g g' h hf
    simp only [fillLayers, Option.some.injEq] at hf
    exact hf ▸ h
  | cons l t ih =>
    intro c g g' h hf
    simp only [fillLayers] at hf
    cases h1 : fillLayerOps wm nW' c l g with
    | none => rw [h1] at hf; simp at hf
    | some g1 =>
      rw [h1] at hf
      exact ih (fillLayerOps_dims h h1) hf

/-! Success of the grid fill when every lookup succeeds and lands inside the
grid, and the exact characterization of its failure. -/

theorem fillWires_ok {wm : WireMap} {c : Nat} {op : Op} {nW nL : Nat} :
    ∀ {ws : List Nat} {g : Grid}, gridDims g nW nL → c < nL →
      (∀ w ∈ ws, ∃ r, lookupWire wm w = some r ∧ r < nW) →
      ∃ g', fillWires wm c op ws g = some g' ∧ gridDims g' nW nL := by
  intro ws
  induction ws with
  | nil => intro g hdims _ _; exact ⟨g, rfl, hdims⟩
  | cons w t ih =>
    intro g hdims hc hok
    obtain ⟨r, hr, hrlt⟩ := hok w (List.mem_cons_self _ _)
    obtain ⟨g', hg', hdims'⟩ := ih (setCell_dims hdims r c op) hc
      (fun w' h' => hok w' (List.mem_cons_of_mem _ h'))
    refine ⟨g', ?_, hdims'⟩
    rw [fillWires_cons wm c op w t g hr,
      if_pos ⟨by rw [hdims.1]; exact hrlt, by rw [hdims.2 r hrlt]; exact hc⟩]
    exact hg'

theorem fillWires_none_iff {wm : WireMap} {c : Nat} {op : Op} {nW nL : Nat} :
    ∀ {ws : List Nat} {g : Grid}, gridDims g nW nL → c < nL →
      (∀ w ∈ ws, ∃ r, lookupWire wm w = some r) →
      (fillWires wm c op ws g = none ↔
        ∃ w ∈ ws, ∃ r, lookupWire wm w = some r ∧ nW ≤ r) := by
  intro ws
  induction ws with
  | nil =>
    intro g _ _ _
    simp [fillWires]
  | cons w t ih =>
    intro g hdims hc hlk
    obtain ⟨r, hr⟩ := hlk w (List.mem_cons_self _ _)
    rw [fillWires_cons wm c op w t g hr]
    by_cases hge : nW ≤ r
    · rw [if_neg (fun hand => absurd hand.1 (by rw [hdims.1]; omega))]
      constructor
      · intro _
        exact ⟨w, List.mem_cons_self _ _, r, hr, hge⟩
      · intro _
        rfl
    · have hlt : r < nW := by omega
      rw [if_pos ⟨by rw [hdims.1]; exact hlt, by rw [hdims.2 r hlt]; exact hc⟩]
      rw [ih (setCell_dims hdims r c op) hc
        (fun w' h' => hlk w' (List.mem_cons_of_mem _ h'))]
      constructor
      · rintro ⟨w', hw', r', hr', hge'⟩
        exact ⟨w', List.mem_cons_of_mem _ hw', r', hr', hge'⟩
      · rintro ⟨w', hw', r', hr', hge'⟩
        rcases List.mem_cons.mp hw' with hEq | hw'
        · subst hEq
          rw [hr] at hr'
          exact absurd hge' (by simp only [Option.some.injEq] at hr'; omega)
        · exact ⟨w', hw', r', hr', hge'⟩

theorem fillOneOp_ok {wm : WireMap} {nW nL c : Nat} {g : Grid} {op : Op}
    (hdims : gridDims g nW nL) (hc : c < nL)
    (hok : ∀ w ∈ op.wires, ∃ r, lookupWire wm w = some r ∧ r < nW) :
    ∃ g', fillOneOp wm nW c g op = some g' ∧ gridDims g' nW nL := by
  unfold fillOneOp
  by_cases hw : op.wires.isEmpty
  · rw [if_pos hw]
    exact fillWires_ok (foldl_setCell_dims _ hdims) hc hok
  · rw [if_neg hw]
    exact fillWires_ok hdims hc hok

theorem fillOneOp_none_iff {wm : WireMap} {nW nL c : Nat} {g : Grid} {op : Op}
    (hdims : gridDims g nW nL) (hc : c < nL)
    (hlk : ∀ w ∈ op.wires, ∃ r, lookupWire wm w = some r) :
    (fillOneOp wm nW c g op = none ↔
      ∃ w ∈ op.wires, ∃ r, lookupWire wm w = some r ∧ nW ≤ r) := by
  unfold fillOneOp
  by_cases hw : op.wires.isEmpty
  · rw [if_pos hw]
    exact fillWires_none_iff (foldl_setCell_dims _ hdims) hc hlk
  · rw [if_neg hw]
    exact fillWires_none_iff hdims hc hlk

theorem fillLayerOps_ok {wm : WireMap} {nW nL c : Nat} :
    ∀ {l : List Op} {g : Grid}, gridDims g nW nL → c < nL →
      (∀ o ∈ l, ∀ w ∈ o.wires, ∃ r, lookupWire wm w = some r ∧ r < nW) →
      ∃ g', fillLayerOps wm nW c l g = some g' ∧ gridDims g' nW nL := by
  intro l
  induction l with
  | nil => intro g hdims _ _; exact ⟨g, rfl, hdims⟩
  | cons o t ih =>
    intro g hdims hc hok
    obtain ⟨g1, hg1, hdims1⟩ := fillOneOp_ok hdims hc (hok o (List.mem_cons_self _ _))
    obtain ⟨g', hg', hdims'⟩ := ih hdims1 hc
      (fun o' h' => hok o' (List.mem_cons_of_mem _ h'))
    refine ⟨g', ?_, hdims'⟩
    simp only [fillLayerOps]
    rw [hg1]
    exact hg'

theorem fillLayerOps_none_iff {wm : WireMap} {nW nL c : Nat} :
    ∀ {l : List Op} {g : Grid}, gridDims g nW nL → c < nL →
      (∀ o ∈ l, ∀ w ∈ o.wires, ∃ r, lookupWire wm w = some r) →
      (fillLayerOps wm nW c l g = none ↔
        ∃ o ∈ l, ∃ w ∈ o.wires, ∃ r, lookupWire wm w = some r ∧ nW ≤ r) := by
  intro l
  induction l with
  | nil => intro g _ _ _; simp [fillLayerOps]
  | cons o t ih =>
    intro g hdims hc hlk
    by_cases hbad : ∃ w ∈ o.wires, ∃ r, lookupWire wm w = some r ∧ nW ≤ r
    · have hnone := (fillOneOp_none_iff hdims hc (hlk o (List.mem_cons_self _ _))).mpr hbad
      simp only [fillLayerOps]
      rw [hnone]
      constructor
      · intro _
        exact ⟨o, List.mem_cons_self _ _, hbad⟩
      · intro _
        rfl
    · have hok : ∀ w ∈ o.wires, ∃ r, lookupWire wm w = some r ∧ r < nW := by
        intro w hw
        obtain ⟨r, hr⟩ := hlk o (List.mem_cons_self _ _) w hw
        refine ⟨r, hr, ?_⟩
        by_contra hge
        exact hbad ⟨w, hw, r, hr, by omega⟩
      obtain ⟨g1, hg1, hdims1⟩ := fillOneOp_ok hdims hc hok
      simp only [fillLayerOps]
      rw [hg1]
      rw [ih hdims1 hc (fun o' h' => hlk o' (List.mem_cons_of_mem _ h'))]
      constructor
      · rintro ⟨o', ho', hrest⟩
        exact ⟨o', List.mem_cons_of_mem _ ho', hrest⟩
      · rintro ⟨o', ho', hrest⟩
        rcases List.mem_cons.mp ho' with hEq | ho'
        · exact absurd (hEq ▸ hrest) hbad
        · exact ⟨o', ho', hrest⟩

theorem fillLayers_ok {wm : WireMap} {nW nL : Nat} :
    ∀ {ls : List (List Op)} {c0 : Nat} {g : Grid}, gridDims g nW nL →
      c0 + ls.length ≤ nL →
      (∀ l ∈ ls, ∀ o ∈ l, ∀ w ∈ o.wires, ∃ r, lookupWire wm w = some r ∧ r < nW) →
      ∃ g', fillLayers wm nW c0 ls g = some g' ∧ gridDims g' nW nL := by
  intro ls
  induction ls with
  | nil => intro c0 g hdims _ _; exact ⟨g, rfl, hdims⟩
  | cons l t ih =>
    intro c0 g hdims hle hok
    have hlen : (l :: t).length = t.length + 1 := by simp
    have hc0 : c0 < nL := by omega
    have hle' : c0 + 1 + t.length ≤ nL := by omega
    obtain ⟨g1, hg1, hdims1⟩ := fillLayerOps_ok hdims hc0
      (hok l (List.mem_cons_self _ _))
    obtain ⟨g', hg', hdims'⟩ := ih hdims1 hle'
      (fun l' h' => hok l' (List.mem_cons_of_mem _ h'))
    refine ⟨g', ?_, hdims'⟩
    simp only [fillLayers]
    rw [hg1]
    exact hg'

theorem fillLayers_none_iff {wm : WireMap} {nW nL : Nat} :
    ∀ {ls : List (List Op)} {c0 : Nat} {g : Grid}, gridDims g nW nL →
      c0 + ls.length ≤ nL →
      (∀ l ∈ ls, ∀ o ∈ l, ∀ w ∈ o.wires, ∃ r, lookupWire wm w = some r) →
      (fillLayers wm nW c0 ls g = none ↔
        ∃ l ∈ ls, ∃ o ∈ l, ∃ w ∈ o.wires, ∃ r, lookupWire wm w = some r ∧ nW ≤ r) := by
  intro ls
  induction ls with
  | nil => intro c0 g _ _ _; simp [fillLayers]
  | cons l t ih =>
    intro c0 g hdims hle hlk
    have hlen : (l :: t).length = t.length + 1 := by simp
    have hc0 : c0 < nL := by omega
    have hle' : c0 + 1 + t.length ≤ nL := by omega
    by_cases hbad : ∃ o ∈ l, ∃ w ∈ o.wires, ∃ r, lookupWire wm w = some r ∧ nW ≤ r
    · have hnone := (fillLayerOps_none_iff hdims hc0
        (hlk l (List.mem_cons_self _ _))).mpr hbad
      simp only [fillLayers]
      rw [hnone]
      constructor
      · intro _
        exact ⟨l, List.mem_cons_self _ _, hbad⟩
      · intro _
        rfl
    · have hokl : ∀ o ∈ l, ∀ w ∈ o.wires, ∃ r, lookupWire wm w = some r ∧ r < nW := by
        intro o ho w hw
        obtain ⟨r, hr⟩ := hlk l (List.mem_cons_self _ _) o ho w hw
        refine ⟨r, hr, ?_⟩
        by_contra hge
        exact hbad ⟨o, ho, w, hw, r, hr, by omega⟩
      obtain ⟨g1, hg1, hdims1⟩ := fillLayerOps_ok hdims hc0 hokl
      simp only [fillLayers]
      rw [hg1]
      rw [ih hdims1 hle' (fun l' h' => hlk l' (List.mem_cons_of_mem _ h'))]
      constructor
      · rintro ⟨l', hl', hrest⟩
        exact ⟨l', List.mem_cons_of_mem _ hl', hrest⟩
      · rintro ⟨l', hl', hrest⟩
        rcases List.mem_cons.mp hl' with hEq | hl'
        · exact absurd (hEq ▸ hrest) hbad
        · exact ⟨l', hl', hrest⟩

/-- Every operation of a computed layer comes from the input list. -/
theorem drawable_layers_mem_ops {ops : List Op} {wm : WireMap} {F : List (List Op)}
    (hF : drawable_layers ops wm = some F) :
    ∀ k, ∀ o ∈ F.getD k [], o ∈ ops := by
  unfold drawable_layers at hF
  cases haux : layersAux wm ops (0, [∅], [[]]) with
  | none => rw [haux] at hF; simp at hF
  | some st =>
    rw [haux] at hF
    simp only [Option.map_some', Option.some.injEq] at hF
    intro k o ho
    rcases layersAux_provenance (Inv_init wm) haux k o (hF ▸ ho) with hinit | hops
    · rw [init_getD_empty k] at hinit
      simp at hinit
    · exact hops

/-- Every input operation lands in some computed layer. -/
theorem drawable_layers_total {ops : List Op} {wm : WireMap} {F : List (List Op)}
    (hF : drawable_layers ops wm = some F) :
    ∀ op ∈ ops, ∃ k, k < F.length ∧ op ∈ F.getD k [] := by
  unfold drawable_layers at hF
  cases haux : layersAux wm ops (0, [∅], [[]]) with
  | none => rw [haux] at hF; simp at hF
  | some st =>
    rw [haux] at hF
    simp only [Option.map_some', Option.some.injEq] at hF
    subst hF
    intro op hop
    obtain ⟨k, hk⟩ := layersAux_total (Inv_init wm) haux op hop
    refine ⟨k, ?_, hk⟩
    by_contra h
    rw [getD_of_le_length st.2.2 ([] : List Op)
      (show st.2.2.length ≤ k from by omega)] at hk
    simp at hk

/-- C9 counterexample: for the empty operation list and a one-wire map, the
grid has one row with zero columns — the claimed guarantee `layerCount ≥ 1`
("every row has at least one column") fails although the wire map is
non-empty. -/
theorem grid_dims_cex :
    drawable_grid ([] : List Op) [(0, 0)] = some [[]] ∧
    ¬ (∀ row ∈ ([[]] : Grid), 1 ≤ row.length) := by
  constructor
  · rfl
  · intro h
    have := h [] (by simp)
    simp at this

/-- C9 amended: when the wire map's values all lie below the wire count (the
dense-contiguous wire-map contract of the specification), the grid has
`layerCount ≥ 1` columns in every row whenever at least one operation exists
(and the layer computation succeeds); with an empty operation list the code
instead returns `wireCount` rows of zero columns (or one empty row when the
wire map is also empty), exactly as the special cases of the specification
describe. -/
theorem drawable_grid_dims (ops : List Op) (wm : WireMap) (F : List (List Op))
    (hne : ops ≠ []) (hF : drawable_layers ops wm = some F)
    (hval : ∀ v ∈ wireMapValues wm, v < wm.length) :
    (1 ≤ F.length ∧
      ∃ G, drawable_grid ops wm = some G ∧ G.length = wm.length ∧
        ∀ row ∈ G, row.length = F.length) ∧
    drawable_grid ([] : List Op) wm =
      (if wm.length = 0 then some [[]] else some (List.replicate wm.length [])) := by
  constructor
  · have hlen : 1 ≤ F.length := by
      unfold drawable_layers at hF
      cases haux : layersAux wm ops (0, [∅], [[]]) with
      | none => rw [haux] at hF; simp at hF
      | some st =>
        rw [haux] at hF
        simp only [Option.map_some', Option.some.injEq] at hF
        have inv := layersAux_inv (Inv_init wm) haux
        rw [← hF, inv.lyLen]
        omega
    refine ⟨hlen, ?_⟩
    obtain ⟨G, hG, hdims⟩ := @fillLayers_ok wm wm.length F.length F 0
      (List.replicate wm.length (List.replicate F.length (none : Option Op)))
      (replicate_dims wm.length F.length) (by omega)
      (fun l hl o ho w hw => by
        obtain ⟨r, hr⟩ := drawable_layers_ops_covered hF l hl o ho w hw
        exact ⟨r, hr, hval r (lookupWire_mem_values hr)⟩)
    refine ⟨G, ?_, hdims.1, ?_⟩
    · unfold drawable_grid
      rw [if_neg (by cases ops with | nil => exact absurd rfl hne | cons a t => simp)]
      rw [hF]
      exact hG
    · intro row hrow
      obtain ⟨r, hr, hgr⟩ := (mem_iff_getD G row []).mp hrow
      rw [← hgr]
      have h1 := hdims.1
      exact hdims.2 r (by omega)
  · rfl

theorem drawable_grid_dims_witness :
    ∃ G, drawable_grid [Op.mk 0 [0]] [(0, 0)] = some G ∧ G.length = 1 ∧
      ∀ row ∈ G, row.length = 1 := by
  obtain ⟨⟨_, G, hG, hlen, hrow⟩, _⟩ :=
    drawable_grid_dims [Op.mk 0 [0]] [(0, 0)] [[Op.mk 0 [0]]] (by simp) (by decide)
      (by
        intro v hv
        have h3 : v = 0 := by simpa [wireMapValues] using hv
        subst h3
        decide)
  exact ⟨G, hG, hlen, by simpa using hrow⟩

/-- C6 counterexample: with wire map `{0 ↦ 5}` every referenced label is
present, so `drawable_layers` succeeds and no lookup fails, yet
`drawable_grid` still fails: the fill loop's row subscript `grid[5]` is out
of range for the one-row grid (Python raises `IndexError` at
`grid[wire_map[wire]][layer] = op`).  The claimed equivalence "fails iff a
referenced label is absent from the wire map" is therefore false for
`drawable_grid`. -/
theorem lookup_failure_cex :
    drawable_layers [Op.mk 0 [0]] [(0, 5)] = some [[Op.mk 0 [0]]] ∧
    (¬ ∃ op ∈ [Op.mk 0 [0]], ∃ w ∈ op.wires, lookupWire [(0, 5)] w = none) ∧
    drawable_grid [Op.mk 0 [0]] [(0, 5)] = none :=
  ⟨by decide, by decide, by decide⟩

/-- C6 amended: `drawable_layers` fails exactly when some operation
references a wire label absent from the wire map (a fatal `KeyError`, not
substituted with a default, no partial result); `drawable_grid` fails
exactly when a label is absent or some operation's mapped wire index is at
least the number of wires, where the row subscript of the fill loop raises
`IndexError` — an additional failure mode beyond the missing-label one. -/
theorem lookup_or_index_failure_iff (ops : List Op) (wm : WireMap) :
    (drawable_layers ops wm = none ↔
      ∃ op ∈ ops, ∃ w ∈ op.wires, lookupWire wm w = none) ∧
    (drawable_grid ops wm = none ↔
      ((∃ op ∈ ops, ∃ w ∈ op.wires, lookupWire wm w = none) ∨
        (∃ op ∈ ops, ∃ w ∈ op.wires, ∃ r,
          lookupWire wm w = some r ∧ wm.length ≤ r))) := by
  refine ⟨drawable_layers_none_iff ops wm, ?_⟩
  unfold drawable_grid
  by_cases hemp : ops.isEmpty
  · have hops : ops = [] := by
      cases ops with
      | nil => rfl
      | cons a t => simp [List.isEmpty] at hemp
    subst hops
    simp only [List.isEmpty_nil, if_true]
    constructor
    · intro hcontra
      split at hcontra <;> simp at hcontra
    · rintro (⟨op, hop, _⟩ | ⟨op, hop, _⟩) <;> simp at hop
  · rw [if_neg hemp]
    cases hl : drawable_layers ops wm with
    | none =>
      simp only [true_iff]
      exact Or.inl ((drawable_layers_none_iff ops wm).mp hl)
    | some F =>
      dsimp only
      rw [@fillLayers_none_iff wm wm.length F.length F 0
        (List.replicate wm.length (List.replicate F.length (none : Option Op)))
        (replicate_dims wm.length F.length) (by omega)
        (drawable_layers_ops_covered hl)]
      constructor
      · rintro ⟨l, hlmem, o, ho, w, hw, r, hr, hge⟩
        refine Or.inr ⟨o, ?_, w, hw, r, hr, hge⟩
        obtain ⟨k, hk, hgk⟩ := (mem_iff_getD F l []).mp hlmem
        exact drawable_layers_mem_ops hl k o (hgk ▸ ho)
      · rintro (hmiss | ⟨op, hop, w, hw, r, hr, hge⟩)
        · exact absurd hl
            (by rw [(drawable_layers_none_iff ops wm).mpr hmiss]; simp)
        · obtain ⟨k, hk, hmem⟩ := drawable_layers_total hl op hop
          refine ⟨F.getD k [], ?_, op, hmem, w, hw, r, hr, hge⟩
          rw [getD_eq_get F [] hk]
          exact List.get_mem F k hk

theorem lookup_or_index_failure_iff_witness :
    drawable_grid [Op.mk 0 [0, 1]] [(0, 0), (1, 5)] = none :=
  (lookup_or_index_failure_iff [Op.mk 0 [0, 1]] [(0, 0), (1, 5)]).2.mpr
    (Or.inr ⟨Op.mk 0 [0, 1], by decide, 1, by decide, 5, by decide, by decide⟩)

/-! Cell-level characterization of the grid fill. -/

/-- The cells (rows) of layer column `c` that the fill loop writes for an
operation: every row for a zero-wire operation, the rows of its actually
referenced mapped wire indices otherwise. -/
abbrev opWritesCell (wm : WireMap) (nW : Nat) (op : Op) (r : Nat) : Prop :=
  (op.wires = [] ∧ r < nW) ∨ (∃ w ∈ op.wires, lookupWire wm w = some r)

/-- All wire lookups of the operation succeed and land inside the grid. -/
def fillOK (wm : WireMap) (nW : Nat) (op : Op) : Prop :=
  ∀ w ∈ op.wires, ∃ r, lookupWire wm w = some r ∧ r < nW

theorem foldl_setCell_char {nW nL c : Nat} {op : Op} (L : List Nat) :
    ∀ (g : Grid), gridDims g nW nL → (∀ r0 ∈ L, r0 < nW) → c < nL →
      ∀ r c', getCell (L.foldl (fun g r0 => setCell g r0 c op) g) r c' =
        if c' = c ∧ r ∈ L then some op else getCell g r c' := by
  induction L with
  | nil =>
    intro g _ _ _ r c'
    simp
  | cons a t ih =>
    intro g hdims hmem hc r c'
    simp only [List.foldl_cons]
    rw [ih (setCell g a c op) (setCell_dims hdims a c op)
      (fun r0 h0 => hmem r0 (List.mem_cons_of_mem _ h0)) hc r c']
    by_cases h1 : c' = c
    · by_cases h2 : r ∈ t
      · rw [if_pos ⟨h1, h2⟩, if_pos ⟨h1, List.mem_cons_of_mem _ h2⟩]
      · rw [if_neg (fun hand => h2 hand.2)]
        by_cases h3 : r = a
        · subst h1
          subst h3
          rw [getCell_setCell_same hdims (hmem r (List.mem_cons_self _ _)) hc,
            if_pos ⟨rfl, List.mem_cons_self _ _⟩]
        · rw [getCell_setCell_other op (Or.inl h3),
            if_neg (fun hand => by
              rcases List.mem_cons.mp hand.2 with hx | hx
              · exact h3 hx
              · exact h2 hx)]
    · rw [if_neg (fun hand => h1 hand.1), if_neg (fun hand => h1 hand.1)]
      exact getCell_setCell_other op (Or.inr h1)

theorem fillWires_char {wm : WireMap} {nW nL c : Nat} {op : Op} (ws : List Nat) :
    ∀ (g : Grid), gridDims g nW nL →
      (∀ w ∈ ws, ∃ r0, lookupWire wm w = some r0 ∧ r0 < nW) → c < nL →
      ∃ g', fillWires wm c op ws g = some g' ∧ gridDims g' nW nL ∧
        ∀ r c', getCell g' r c' =
          if c' = c ∧ (∃ w ∈ ws, lookupWire wm w = some r) then some op
          else getCell g r c' := by
  induction ws with
  | nil =>
    intro g hdims _ _
    refine ⟨g, rfl, hdims, ?_⟩
    intro r c'
    simp
  | cons w t ih =>
    intro g hdims hok hc
    obtain ⟨r0, hr0, hr0lt⟩ := hok w (List.mem_cons_self _ _)
    obtain ⟨g', hg', hdims', hchar⟩ := ih (setCell g r0 c op)
      (setCell_dims hdims r0 c op) (fun w' h' => hok w' (List.mem_cons_of_mem _ h')) hc
    refine ⟨g', ?_, hdims', ?_⟩
    · rw [fillWires_cons wm c op w t g hr0,
        if_pos ⟨by rw [hdims.1]; exact hr0lt, by rw [hdims.2 r0 hr0lt]; exact hc⟩]
      exact hg'
    · intro r c'
      rw [hchar r c']
      by_cases h1 : c' = c
      · by_cases h2 : ∃ w' ∈ t, lookupWire wm w' = some r
        · rw [if_pos ⟨h1, h2⟩]
          obtain ⟨w', hw', hl'⟩ := h2
          rw [if_pos ⟨h1, w', List.mem_cons_of_mem _ hw', hl'⟩]
        · rw [if_neg (fun hand => h2 hand.2)]
          by_cases h3 : r = r0
          · subst h1
            subst h3
            rw [getCell_setCell_same hdims hr0lt hc,
              if_pos ⟨rfl, w, List.mem_cons_self _ _, hr0⟩]
          · rw [getCell_setCell_other op (Or.inl h3),
              if_neg (fun hand => by
                obtain ⟨w', hw', hl'⟩ := hand.2
                rcases List.mem_cons.mp hw' with hx | hx
                · subst hx
                  rw [hr0] at hl'
                  exact h3 (Option.some_injective _ hl').symm
                · exact h2 ⟨w', hx, hl'⟩)]
      · rw [if_neg (fun hand => h1 hand.1), if_neg (fun hand => h1 hand.1)]
        exact getCell_setCell_other op (Or.inr h1)

theorem fillOneOp_char {wm : WireMap} {nW nL c : Nat} {g : Grid} {op : Op}
    (hdims : gridDims g nW nL) (hok : fillOK wm nW op) (hc : c < nL) :
    ∃ g', fillOneOp wm nW c g op = some g' ∧ gridDims g' nW nL ∧
      ∀ r c', getCell g' r c' =
        if c' = c ∧ opWritesCell wm nW op r then some op else getCell g r c' := by
  unfold fillOneOp
  by_cases hw : op.wires.isEmpty
  · have hwires : op.wires = [] := by
      cases hx : op.wires with
      | nil => rfl
      | cons a t => rw [hx] at hw; simp [List.isEmpty] at hw
    rw [if_pos hw]
    have hfw : fillWires wm c op op.wires
        (List.foldl (fun g r => setCell g r c op) g (List.range nW)) =
        some (List.foldl (fun g r => setCell g r c op) g (List.range nW)) := by
      rw [hwires]
      rfl
    refine ⟨_, hfw, foldl_setCell_dims _ hdims, ?_⟩
    intro r c'
    rw [foldl_setCell_char (List.range nW) g hdims
      (fun r0 h0 => List.mem_range.mp h0) hc r c']
    by_cases h1 : c' = c ∧ opWritesCell wm nW op r
    · rw [if_pos h1]
      rcases h1.2 with ⟨_, hlt⟩ | ⟨w, hwm, _⟩
      · rw [if_pos ⟨h1.1, List.mem_range.mpr hlt⟩]
      · rw [hwires] at hwm
        simp at hwm
    · rw [if_neg h1, if_neg (fun hand =>
        h1 ⟨hand.1, Or.inl ⟨hwires, List.mem_range.mp hand.2⟩⟩)]
  · have hwires : op.wires ≠ [] := by
      intro hx
      rw [hx] at hw
      exact hw rfl
    rw [if_neg hw]
    have hok' : ∀ w ∈ op.wires, ∃ r0, lookupWire wm w = some r0 ∧ r0 < nW := hok
    obtain ⟨g', hg', hdims', hchar⟩ := fillWires_char op.wires g hdims hok' hc
    refine ⟨g', hg', hdims', ?_⟩
    intro r c'
    rw [hchar r c']
    by_cases h1 : c' = c ∧ opWritesCell wm nW op r
    · rw [if_pos h1]
      rcases h1.2 with ⟨hnil, _⟩ | hex
      · exact absurd hnil hwires
      · rw [if_pos ⟨h1.1, hex⟩]
    · rw [if_neg h1, if_neg (fun hand => h1 ⟨hand.1, Or.inr hand.2⟩)]

/-- No two distinct operations of the list write the same grid row. -/
def noClash (wm : WireMap) (nW : Nat) (l : List Op) : Prop :=
  ∀ o ∈ l, ∀ o' ∈ l, o ≠ o' → ∀ r, opWritesCell wm nW o r → ¬ opWritesCell wm nW o' r

theorem fillLayerOps_char {wm : WireMap} {nW nL c : Nat} (l : List Op) :
    ∀ (done : List Op) (g : Grid), gridDims g nW nL →
      (∀ o ∈ l, fillOK wm nW o) → (done ++ l).Nodup → noClash wm nW (done ++ l) →
      c < nL →
      (∀ r o, getCell g r c = some o ↔ (o ∈ done ∧ opWritesCell wm nW o r)) →
      ∃ g', fillLayerOps wm nW c l g = some g' ∧ gridDims g' nW nL ∧
        (∀ r o, getCell g' r c = some o ↔ (o ∈ done ++ l ∧ opWritesCell wm nW o r)) ∧
        (∀ r c', c' ≠ c → getCell g' r c' = getCell g r c') := by
  induction l with
  | nil =>
    intro done g hdims _ _ _ _ hcol
    refine ⟨g, rfl, hdims, ?_, fun r c' _ => rfl⟩
    intro r o
    rw [List.append_nil]
    exact hcol r o
  | cons op t ih =>
    intro done g hdims hok hnd hnc hc hcol
    obtain ⟨g1, hg1, hdims1, hchar1⟩ :=
      fillOneOp_char hdims (hok op (List.mem_cons_self _ _)) hc
    have hopdone : op ∉ done := by
      intro hmem
      exact (List.nodup_append.mp hnd).2.2 hmem (List.mem_cons_self _ _)
    have hopmem : op ∈ done ++ op :: t :=
      List.mem_append.mpr (Or.inr (List.mem_cons_self _ _))
    have hcol1 : ∀ r o, getCell g1 r c = some o ↔
        (o ∈ done ++ [op] ∧ opWritesCell wm nW o r) := by
      intro r o
      rw [hchar1 r c]
      by_cases hwr : opWritesCell wm nW op r
      · rw [if_pos ⟨rfl, hwr⟩]
        constructor
        · intro h
          obtain rfl : op = o := Option.some_injective _ h
          exact ⟨List.mem_append.mpr (Or.inr (List.mem_singleton.mpr rfl)), hwr⟩
        · rintro ⟨hmem, hwro⟩
          rcases List.mem_append.mp hmem with hmem | hmem
          · exact absurd hwro
              (hnc op hopmem o (List.mem_append.mpr (Or.inl hmem))
                (fun hEq => hopdone (hEq ▸ hmem)) r hwr)
          · rw [List.mem_singleton.mp hmem]
      · rw [if_neg (fun hand => hwr hand.2), hcol r o]
        constructor
        · rintro ⟨hmem, hwo⟩
          exact ⟨List.mem_append.mpr (Or.inl hmem), hwo⟩
        · rintro ⟨hmem, hwo⟩
          rcases List.mem_append.mp hmem with hmem | hmem
          · exact ⟨hmem, hwo⟩
          · rw [List.mem_singleton.mp hmem] at hwo
            exact absurd hwo hwr
    have hlisteq : (done ++ [op]) ++ t = done ++ op :: t := by simp
    obtain ⟨g', hg', hdims', hcolF, hother⟩ := ih (done ++ [op]) g1 hdims1
      (fun o ho => hok o (List.mem_cons_of_mem _ ho))
      (by rw [hlisteq]; exact hnd) (by rw [hlisteq]; exact hnc) hc hcol1
    rw [hlisteq] at hcolF
    refine ⟨g', ?_, hdims', hcolF, ?_⟩
    · simp only [fillLayerOps]
      rw [hg1]
      exact hg'
    · intro r c' hcc
      rw [hother r c' hcc, hchar1 r c', if_neg (fun hand => hcc hand.1)]

theorem fillLayers_char {wm : WireMap} {nW nL : Nat} (ls : List (List Op)) :
    ∀ (c0 : Nat) (g : Grid), gridDims g nW nL →
      (∀ l ∈ ls, ∀ o ∈ l, fillOK wm nW o) →
      (∀ l ∈ ls, l.Nodup ∧ noClash wm nW l) →
      c0 + ls.length ≤ nL →
      (∀ r k, k < ls.length → getCell g r (c0 + k) = none) →
      ∃ g', fillLayers wm nW c0 ls g = some g' ∧ gridDims g' nW nL ∧
        (∀ r c', (c' < c0 ∨ c0 + ls.length ≤ c') → getCell g' r c' = getCell g r c') ∧
        (∀ r k o, k < ls.length →
          (getCell g' r (c0 + k) = some o ↔
            (o ∈ ls.getD k [] ∧ opWritesCell wm nW o r))) := by
  induction ls with
  | nil =>
    intro c0 g hdims _ _ _ _
    exact ⟨g, rfl, hdims, fun r c' _ => rfl, fun r k o hk => absurd hk (by simp)⟩
  | cons l ls ih =>
    intro c0 g hdims hok hlay hle hempty
    have hlen : (l :: ls).length = ls.length + 1 := by simp
    have hc0 : c0 < nL := by omega
    have hcol0 : ∀ r o, getCell g r c0 = some o ↔
        (o ∈ ([] : List Op) ∧ opWritesCell wm nW o r) := by
      intro r o
      have h0 : getCell g r c0 = none := by
        have := hempty r 0 (by simp)
        rw [Nat.add_zero] at this
        exact this
      rw [h0]
      constructor
      · intro h
        simp at h
      · rintro ⟨hmem, _⟩
        simp at hmem
    obtain ⟨g1, hg1, hdims1, hcol1, hother1⟩ := fillLayerOps_char l [] g hdims
      (hok l (List.mem_cons_self _ _))
      (by simpa using (hlay l (List.mem_cons_self _ _)).1)
      (by
        have := (hlay l (List.mem_cons_self _ _)).2
        simpa using this)
      hc0 hcol0
    have hempty1 : ∀ r k, k < ls.length → getCell g1 r ((c0 + 1) + k) = none := by
      intro r k hk
      rw [hother1 r _ (by omega)]
      have := hempty r (k + 1) (by omega)
      rw [show c0 + (k + 1) = c0 + 1 + k by omega] at this
      exact this
    obtain ⟨g', hg', hdims', hout, hchar⟩ := ih (c0 + 1) g1 hdims1
      (fun l' h' => hok l' (List.mem_cons_of_mem _ h'))
      (fun l' h' => hlay l' (List.mem_cons_of_mem _ h'))
      (by omega) hempty1
    refine ⟨g', ?_, hdims', ?_, ?_⟩
    · simp only [fillLayers]
      rw [hg1]
      exact hg'
    · intro r c' hcc
      rw [hout r c' (by omega), hother1 r c' (by omega)]
    · intro r k o hk
      match k with
      | 0 =>
        rw [Nat.add_zero, hout r c0 (Or.inl (by omega)), hcol1 r o]
        constructor
        · rintro ⟨hmem, hwo⟩
          exact ⟨by simpa using hmem, hwo⟩
        · rintro ⟨hmem, hwo⟩
          exact ⟨by simpa using hmem, hwo⟩
      | k + 1 =>
        rw [show c0 + (k + 1) = (c0 + 1) + k by omega,
          hchar r k o (by rw [hlen] at hk; omega)]
        rfl

/-- Any row written for an operation lies inside the operation's OccupiedSet
(assuming the wire map's values are exactly the indices below `nW`). -/
theorem writes_mem_occupied {wm : WireMap} {nW : Nat} {o : Op} {r : Nat} {s : Finset Nat}
    (hdense : ∀ v, v ∈ wireMapValues wm ↔ v < nW)
    (hs : opOccupiedWires wm o = some s) (hw : opWritesCell wm nW o r) : r ∈ s := by
  unfold opOccupiedWires at hs
  rcases hw with ⟨hnil, hlt⟩ | ⟨w, hwmem, hl⟩
  · rw [hnil] at hs
    simp only [Option.some.injEq] at hs
    rw [← hs]
    exact (hdense r).mpr hlt
  · cases hwires : o.wires with
    | nil =>
      rw [hwires] at hwmem
      simp at hwmem
    | cons a t =>
      rw [hwires] at hs
      cases hm : mappedWires wm o with
      | none => rw [hm] at hs; simp at hs
      | some mws =>
        rw [hm] at hs
        simp only [Option.map_some', Option.some.injEq] at hs
        obtain ⟨b, hb, hlb⟩ := mapOpt_forall_mem hm w hwmem
        have hbr : b = r := by
          rw [hl] at hlb
          exact (Option.some_injective _ hlb).symm
        subst hbr
        rw [← hs]
        exact Finset.mem_Icc.mpr ⟨listMin_le _ hb, le_listMax _ hb⟩

/-- The per-layer invariants of a successful layer assignment, restated on
the returned list: each layer is duplicate-free, member OccupiedSets are
defined, and they are pairwise disjoint. -/
theorem drawable_layers_layer_inv {ops : List Op} {wm : WireMap} {F : List (List Op)}
    (hF : drawable_layers ops wm = some F) :
    ∀ k, (F.getD k []).Nodup ∧
      (∀ o ∈ F.getD k [], ∃ s, opOccupiedWires wm o = some s) ∧
      (∀ o ∈ F.getD k [], ∀ o' ∈ F.getD k [], o ≠ o' →
        Disjoint ((opOccupiedWires wm o).getD ∅) ((opOccupiedWires wm o').getD ∅)) := by
  unfold drawable_layers at hF
  cases haux : layersAux wm ops (0, [∅], [[]]) with
  | none => rw [haux] at hF; simp at hF
  | some st =>
    rw [haux] at hF
    simp only [Option.map_some', Option.some.injEq] at hF
    have inv := layersAux_inv (Inv_init wm) haux
    subst hF
    intro k
    exact ⟨inv.nodup k, fun o ho => inv.defined k o ho,
      fun o ho o' ho' hne' => inv.disj k o o' ho ho' hne'⟩

/-- Every operation of a duplicate-free input occupies exactly one layer of a
successful layer assignment. -/
theorem drawable_layers_unique_layer {ops : List Op} {wm : WireMap} {F : List (List Op)}
    (hnd : ops.Nodup) (hF : drawable_layers ops wm = some F) :
    ∀ op ∈ ops, ∃ c0, ∀ c, (op ∈ F.getD c [] ↔ c = c0) := by
  unfold drawable_layers at hF
  cases haux : layersAux wm ops (0, [∅], [[]]) with
  | none => rw [haux] at hF; simp at hF
  | some st =>
    rw [haux] at hF
    simp only [Option.map_some', Option.some.injEq] at hF
    subst hF
    intro op hop
    have huniq : ∀ o l l', o ∈ st.2.2.getD l [] → o ∈ st.2.2.getD l' [] → l = l' := by
      apply layersAux_unique (Inv_init wm) hnd ?_ ?_ haux
      · intro o l hmem
        rw [init_getD_empty l] at hmem
        simp at hmem
      · intro o l l' hmem
        rw [init_getD_empty l] at hmem
        simp at hmem
    obtain ⟨c0, hc0⟩ := layersAux_total (Inv_init wm) haux op hop
    refine ⟨c0, fun c => ⟨fun hmem => huniq op c c0 hmem hc0, fun hc => hc ▸ hc0⟩⟩

/-- Full cell-level description of `drawable_grid` for a non-empty operation
list over a dense wire map: the grid has `wireCount x layerCount` cells and a
cell `(r, c)` holds exactly the operations of layer `c` whose fill rows
include `r`. -/
theorem drawable_grid_char (ops : List Op) (wm : WireMap) (F : List (List Op)) (G : Grid)
    (hdense : ∀ v, v ∈ wireMapValues wm ↔ v < wm.length)
    (hF : drawable_layers ops wm = some F) (hG : drawable_grid ops wm = some G)
    (hne : ops ≠ []) :
    gridDims G wm.length F.length ∧
    ∀ r c o, getCell G r c = some o ↔
      (o ∈ F.getD c [] ∧ opWritesCell wm wm.length o r) := by
  have hfillOK : ∀ l ∈ F, ∀ o ∈ l, fillOK wm wm.length o := by
    intro l hl o ho w hw
    obtain ⟨r, hr⟩ := drawable_layers_ops_covered hF l hl o ho w hw
    exact ⟨r, hr, (hdense r).mp (lookupWire_mem_values hr)⟩
  have hinvF := drawable_layers_layer_inv hF
  have hlayprops : ∀ l ∈ F, l.Nodup ∧ noClash wm wm.length l := by
    intro l hl
    obtain ⟨k, hk, hgk⟩ := (mem_iff_getD F l []).mp hl
    obtain ⟨hnd, hdef, hdisj⟩ := hinvF k
    rw [hgk] at hnd hdef hdisj
    refine ⟨hnd, ?_⟩
    intro o ho o' ho' hne' r hw hw'
    obtain ⟨s, hs⟩ := hdef o ho
    obtain ⟨s', hs'⟩ := hdef o' ho'
    have h1 := writes_mem_occupied hdense hs hw
    have h2 := writes_mem_occupied hdense hs' hw'
    have hd := hdisj o ho o' ho' hne'
    rw [hs, hs'] at hd
    simp only [Option.getD_some] at hd
    exact Finset.disjoint_left.mp hd h1 h2
  unfold drawable_grid at hG
  rw [if_neg (by cases ops with | nil => exact absurd rfl hne | cons a t => simp)] at hG
  rw [hF] at hG
  have hG2 : fillLayers wm wm.length 0 F
      (List.replicate wm.length (List.replicate F.length (none : Option Op))) =
      some G := hG
  obtain ⟨g', hg', hdims', hout, hchar⟩ := fillLayers_char F 0
    (List.replicate wm.length (List.replicate F.length (none : Option Op)))
    (replicate_dims _ _) hfillOK hlayprops (by omega)
    (fun r k _ => getCell_replicate_none _ _ _ _)
  rw [hg'] at hG2
  obtain rfl : g' = G := Option.some_injective _ hG2
  refine ⟨hdims', ?_⟩
  intro r c o
  by_cases hc : c < F.length
  · have h := hchar r c o hc
    rw [Nat.zero_add] at h
    exact h
  · have hnone : getCell g' r c = none := by
      unfold getCell
      by_cases hr : r < wm.length
      · exact getD_of_le_length (g'.getD r []) none (by rw [hdims'.2 r hr]; omega)
      · rw [getD_of_le_length g' ([] : List (Option Op)) (by rw [hdims'.1]; omega)]
        rfl
    rw [hnone]
    constructor
    · intro h
      exact absurd h (by simp)
    · rintro ⟨hmem, _⟩
      rw [getD_of_le_length F ([] : List Op) (by omega)] at hmem
      simp at hmem

/-! Helpers for counting the cells of one operation. -/

theorem writes_broadcast {wm : WireMap} {nW : Nat} {o : Op} {r : Nat}
    (hwires : o.wires = []) : opWritesCell wm nW o r ↔ r < nW := by
  constructor
  · rintro (⟨_, h⟩ | ⟨w, hw, _⟩)
    · exact h
    · rw [hwires] at hw
      simp at hw
  · intro h
    exact Or.inl ⟨hwires, h⟩

theorem writes_iff_mem_mapped {wm : WireMap} {nW : Nat} {o : Op} {mN : Finset Nat} {r : Nat}
    (hwires : o.wires ≠ []) (hm : mappedIndexSet wm o = some mN) :
    opWritesCell wm nW o r ↔ r ∈ mN := by
  unfold mappedIndexSet at hm
  cases hw : o.wires with
  | nil => exact absurd hw hwires
  | cons a t =>
    rw [hw] at hm
    cases hmw : mappedWires wm o with
    | none => rw [hmw] at hm; simp at hm
    | some mws =>
      rw [hmw] at hm
      simp only [Option.map_some', Option.some.injEq] at hm
      constructor
      · rintro (⟨hnil, _⟩ | ⟨w, hwm, hl⟩)
        · exact absurd hnil hwires
        · obtain ⟨b, hb, hlb⟩ := mapOpt_forall_mem hmw w hwm
          have hbr : b = r := by
            rw [hl] at hlb
            exact (Option.some_injective _ hlb).symm
          subst hbr
          rw [← hm]
          exact List.mem_toFinset.mpr hb
      · intro hr
        rw [← hm] at hr
        obtain ⟨w, hwm, hl⟩ := mapOpt_mem hmw r (List.mem_toFinset.mp hr)
        exact Or.inr ⟨w, hwm, hl⟩

theorem mappedIndexSet_some_of_lookups {wm : WireMap} {o : Op}
    (h : ∀ w ∈ o.wires, ∃ r, lookupWire wm w = some r) :
    ∃ m, mappedIndexSet wm o = some m := by
  unfold mappedIndexSet
  cases hw : o.wires with
  | nil => exact ⟨wireMapValues wm, rfl⟩
  | cons a t =>
    cases hmw : mappedWires wm o with
    | none =>
      obtain ⟨w, hwm, hl⟩ := mapOpt_eq_none.mp hmw
      obtain ⟨r, hr⟩ := h w hwm
      rw [hr] at hl
      simp at hl
    | some mws =>
      exact ⟨mws.toFinset, rfl⟩

theorem list_toFinset_map {α β : Type} [DecidableEq α] [DecidableEq β]
    (l : List α) (f : α → β) : (l.map f).toFinset = l.toFinset.image f := by
  induction l with
  | nil => simp
  | cons a t ih => simp [ih]

theorem mapped_card {wm : WireMap} {o : Op} {mN : Finset Nat}
    (hvalnd : (wm.map Prod.snd).Nodup)
    (hcov : ∀ w ∈ o.wires, ∃ r, lookupWire wm w = some r)
    (hwires : o.wires ≠ []) (hm : mappedIndexSet wm o = some mN) :
    mN.card = o.wires.dedup.length := by
  unfold mappedIndexSet at hm
  cases hw : o.wires with
  | nil => exact absurd hw hwires
  | cons a t =>
    rw [hw] at hm
    cases hmw : mappedWires wm o with
    | none => rw [hmw] at hm; simp at hm
    | some mws =>
      rw [hmw] at hm
      simp only [Option.map_some', Option.some.injEq] at hm
      have hmap : mws = o.wires.map (fun w => (lookupWire wm w).getD 0) :=
        mapOpt_eq_map hmw
      rw [← hm, hmap, list_toFinset_map]
      rw [Finset.card_image_of_injOn ?_]
      · rw [← hw]
        exact List.card_toFinset o.wires
      · intro w hwmem w' hwmem' heq
        have hw1 : w ∈ o.wires := List.mem_toFinset.mp (by exact_mod_cast hwmem)
        have hw2 : w' ∈ o.wires := List.mem_toFinset.mp (by exact_mod_cast hwmem')
        obtain ⟨r1, hr1⟩ := hcov w hw1
        obtain ⟨r2, hr2⟩ := hcov w' hw2
        simp only [hr1, hr2, Option.getD_some] at heq
        exact lookupWire_inj hvalnd hr1 (heq ▸ hr2)

/-- The set of grid cells holding a reference to the operation. -/
def opCells (G : Grid) (nW nL : Nat) (op : Op) : Finset (Nat × Nat) :=
  (Finset.range nW ×ˢ Finset.range nL).filter (fun rc => getCell G rc.1 rc.2 = some op)

/-- C8: for pairwise-distinct operations and a covering dense injective wire
map, every cell of the grid holds at most one reference (by construction);
each operation occupies exactly one layer column `c0`; a cell holds the
operation exactly when it sits in column `c0` at one of the operation's fill
rows; a zero-wire operation's fill rows are all rows; an operation with at
least one wire occupies exactly the cells of its distinct mapped wire rows
in column `c0` — `wires.dedup.length` many — and the pass-through rows of
its blocked span hold no reference at all in its column. -/
theorem drawable_grid_cells (ops : List Op) (wm : WireMap) (F : List (List Op)) (G : Grid)
    (hnd : ops.Nodup)
    (hdense : ∀ v, v ∈ wireMapValues wm ↔ v < wm.length)
    (hvalnd : (wm.map Prod.snd).Nodup)
    (hF : drawable_layers ops wm = some F)
    (hG : drawable_grid ops wm = some G) :
    ∀ op ∈ ops, ∃ c0 mOp,
      mappedIndexSet wm op = some mOp ∧
      (∀ c, op ∈ F.getD c [] ↔ c = c0) ∧
      (∀ r c, getCell G r c = some op ↔
        (c = c0 ∧ opWritesCell wm wm.length op r)) ∧
      (op.wires = [] → ∀ r, opWritesCell wm wm.length op r ↔ r < wm.length) ∧
      (op.wires ≠ [] →
        (∀ r, opWritesCell wm wm.length op r ↔ r ∈ mOp) ∧
        opCells G wm.length F.length op = mOp ×ˢ {c0} ∧
        (opCells G wm.length F.length op).card = op.wires.dedup.length) ∧
      (∀ r s, opOccupiedWires wm op = some s → r ∈ s →
        ¬ opWritesCell wm wm.length op r → getCell G r c0 = none) := by
  intro op hop
  have hne : ops ≠ [] := by
    intro h
    rw [h] at hop
    simp at hop
  obtain ⟨hdims, hchar⟩ := drawable_grid_char ops wm F G hdense hF hG hne
  obtain ⟨c0, hc0⟩ := drawable_layers_unique_layer hnd hF op hop
  have hopc0 : op ∈ F.getD c0 [] := (hc0 c0).mpr rfl
  have hc0lt : c0 < F.length := by
    by_contra h
    rw [getD_of_le_length F [] (by omega)] at hopc0
    simp at hopc0
  have hlmem : F.getD c0 [] ∈ F := by
    rw [getD_eq_get F [] hc0lt]
    exact List.get_mem F c0 hc0lt
  have hcov := drawable_layers_ops_covered hF _ hlmem op hopc0
  obtain ⟨mOp, hmOp⟩ := mappedIndexSet_some_of_lookups hcov
  have hcell : ∀ r c, getCell G r c = some op ↔
      (c = c0 ∧ opWritesCell wm wm.length op r) := by
    intro r c
    rw [hchar r c op]
    constructor
    · rintro ⟨hmem, hw⟩
      exact ⟨(hc0 c).mp hmem, hw⟩
    · rintro ⟨rfl, hw⟩
      exact ⟨hopc0, hw⟩
  refine ⟨c0, mOp, hmOp, hc0, hcell, fun hwires r => writes_broadcast hwires, ?_, ?_⟩
  · intro hwires
    have hwiff : ∀ r, opWritesCell wm wm.length op r ↔ r ∈ mOp :=
      fun r => writes_iff_mem_mapped hwires hmOp
    have hext : opCells G wm.length F.length op = mOp ×ˢ {c0} := by
      apply Finset.ext
      rintro ⟨r, c⟩
      simp only [opCells, Finset.mem_filter, Finset.mem_product, Finset.mem_range,
        Finset.mem_singleton]
      constructor
      · rintro ⟨⟨hr, hcl⟩, hcl2⟩
        obtain ⟨hceq, hw⟩ := (hcell r c).mp hcl2
        exact ⟨(hwiff r).mp hw, hceq⟩
      · rintro ⟨hrm, hceq⟩
        subst hceq
        refine ⟨⟨(hdense r).mp (mappedIndexSet_subset_values hmOp hrm), hc0lt⟩, ?_⟩
        exact (hcell r c).mpr ⟨rfl, (hwiff r).mpr hrm⟩
    refine ⟨hwiff, hext, ?_⟩
    rw [hext, Finset.card_product, Finset.card_singleton, Nat.mul_one]
    exact mapped_card hvalnd hcov hwires hmOp
  · intro r s hs hrs hnw
    cases hcl : getCell G r c0 with
    | none => rfl
    | some o' =>
      exfalso
      rw [hchar r c0 o'] at hcl
      obtain ⟨hmem', hw'⟩ := hcl
      by_cases ho' : o' = op
      · subst ho'
        exact hnw hw'
      · obtain ⟨_, hdef, hdisj⟩ := drawable_layers_layer_inv hF c0
        obtain ⟨s', hs'⟩ := hdef o' hmem'
        have hr' : r ∈ s' := writes_mem_occupied hdense hs' hw'
        have hd := hdisj op hopc0 o' hmem' (fun h => ho' h.symm)
        rw [hs, hs'] at hd
        simp only [Option.getD_some] at hd
        exact Finset.disjoint_left.mp hd hrs hr'

theorem drawable_grid_cells_witness :
    (opCells [[some (Op.mk 0 [0, 2]), none], [none, some (Op.mk 1 [1])],
      [some (Op.mk 0 [0, 2]), none]] 3 2 (Op.mk 0 [0, 2])).card = 2 := by
  obtain ⟨c0, mOp, hm, hc0, hcell, hbr, hwf, hpass⟩ :=
    drawable_grid_cells [Op.mk 0 [0, 2], Op.mk 1 [1]] [(0, 0), (1, 1), (2, 2)]
      [[Op.mk 0 [0, 2]], [Op.mk 1 [1]]]
      [[some (Op.mk 0 [0, 2]), none], [none, some (Op.mk 1 [1])],
        [some (Op.mk 0 [0, 2]), none]]
      (by decide)
      (by
        intro v
        constructor
        · intro h
          fin_cases h <;> decide
        · intro h
          have h3 : v < 3 := by simpa using h
          interval_cases v <;> decide)
      (by decide) (by decide) (by decide) (Op.mk 0 [0, 2]) (by decide)
  have h2 := (hwf (by decide)).2.2
  rw [show ([[Op.mk 0 [0, 2]], [Op.mk 1 [1]]] : List (List Op)).length = 2 from rfl] at h2
  exact h2.trans (by decide)

end DrawableLayers
